import Mathlib

/-!
Verification development for the dragoman structured-text translation
pipeline: text primitives (Extract / ReplaceMany), the preserve
splitter/joiner, the JSON lexer and ranger, the translation orchestrator,
and the HTML ranger.
-/

namespace Dragoman

/-- Go strings are modelled as lists of characters.  The first revision of
`text.go` indexes bytes, the second converts to `[]rune` and indexes runes;
both become plain list indexing in this model. -/
abbrev Str := List Char

instance {ε α : Type} [DecidableEq ε] [DecidableEq α] : DecidableEq (Except ε α) := fun x y =>
  match x, y with
  | .ok a, .ok b =>
    if h : a = b then isTrue (by rw [h]) else isFalse (by intro he; cases he; exact h rfl)
  | .ok _, .error _ => isFalse (by intro h; cases h)
  | .error _, .ok _ => isFalse (by intro h; cases h)
  | .error a, .error b =>
    if h : a = b then isTrue (by rw [h]) else isFalse (by intro he; cases he; exact h rfl)

/-- `text.Range`: a half-open interval `[start, stop)` (source: `type Range
[2]uint`, with `r[0]` the start and `r[1]` the end offset). -/
structure Range where
  start : Nat
  stop : Nat
deriving DecidableEq, Repr

/-- `text.RangeError`, split by its three distinct messages: "negative length
range", "range start ... after input end", "range end ... after input end". -/
inductive RangeErr where
  | negativeLength (r : Range)
  | startPastEnd (r : Range)
  | endPastEnd (r : Range)
deriving DecidableEq, Repr

/-- `text.Extract` (src/text/text.go, first revision lines 28-53; the second
revision's reader-based `Extract`/`ExtractString` has the same input/output
behaviour on the list model): empty range first, then negative length, then
`r[0] >= len(input)`, then `r[1] > len(input)`, else the slice. -/
def Extract (input : Str) (r : Range) : Except RangeErr Str :=
  if r.stop = r.start then .ok []
  else if r.stop < r.start then .error (.negativeLength r)
  else if input.length ≤ r.start then .error (.startPastEnd r)
  else if input.length < r.stop then .error (.endPastEnd r)
  else .ok ((input.drop r.start).take (r.stop - r.start))

/-- `text.Replacement`. -/
structure Replacement where
  range : Range
  text : Str
deriving DecidableEq, Repr

/-- Failure modes of `ReplaceMany`: the wrapped `Extract` error
("extract text: %w"), or a Go slice-bounds panic in the splice expression. -/
inductive ReplaceErr where
  | extractErr (e : RangeErr)
  | panic
deriving DecidableEq, Repr

/-- The `sort.Slice(replacements, ...)` call in the second-revision
`ReplaceMany`, comparing `Range[0]`.  Modelled as a stable insertion sort
(Go's sort is unspecified on ties; for two elements it keeps input order,
as insertion sort does). -/
def sortByStart (repls : List Replacement) : List Replacement :=
  List.insertionSort (fun a b => a.range.start ≤ b.range.start) repls

/-- The replacement loop of `ReplaceMany` (src/text/text.go, second revision
lines 254-280): splice `output[:start+offset] ++ text ++ output[end+offset:]`,
then extract the original text from `input` and grow `offset` by the length
difference.  Go panics when a slice index is out of `[0, len(output)]`. -/
def spliceLoop (input : Str) : Int → Str → List Replacement → Except ReplaceErr Str
  | _, out, [] => .ok out
  | offset, out, repl :: rest =>
    if 0 ≤ (repl.range.start : Int) + offset ∧ (repl.range.start : Int) + offset ≤ out.length ∧
        0 ≤ (repl.range.stop : Int) + offset ∧ (repl.range.stop : Int) + offset ≤ out.length then
      match Extract input repl.range with
      | .error e => .error (.extractErr e)
      | .ok org =>
        spliceLoop input (offset + ((repl.text.length : Int) - (org.length : Int)))
          (out.take ((repl.range.start : Int) + offset).toNat ++ repl.text ++
            out.drop ((repl.range.stop : Int) + offset).toNat) rest
    else .error .panic

/-- `text.ReplaceMany` (second revision): sort by range start, then run the
offset-compensated splice loop starting from the input itself. -/
def ReplaceMany (input : Str) (repls : List Replacement) : Except ReplaceErr Str :=
  spliceLoop input 0 input (sortByStart repls)

/-- The sub-slice `input[a:b]` of a Go string. -/
def seg (input : Str) (a b : Nat) : Str :=
  (input.drop a).take (b - a)

/-! ## Preserve splitter / joiner (src/text/preserve/preserve.go) -/

/-- `preserve.Item`: a cutout substring together with the part index at which
it must be reinserted. -/
structure Item where
  text : Str
  index : Nat
deriving DecidableEq, Repr

/-- The loop body of `preserve.Regexp`.  `matches` is the result of Go's
`expr.FindAllStringIndex(text, -1)`: the ascending, pairwise non-overlapping
half-open match intervals of the pattern (the regular-expression engine is
external, so it enters the model through this list).  For each match the
source increments `partIndex`, appends the inter-match substring to `parts`
if non-empty (decrementing `partIndex` back otherwise), and records the match
as an item at the adjusted `partIndex`.  Returns the final
`(parts, items, textStart)`. -/
def regexpGo (text : Str) :
    Nat → Nat → List Str → List Item → List (Nat × Nat) → List Str × List Item × Nat
  | textStart, _, parts, items, [] => (parts, items, textStart)
  | textStart, partIndex, parts, items, m :: ms =>
    let pi := partIndex + 1
    let t := seg text textStart m.1
    let parts' := if t = [] then parts else parts ++ [t]
    let pi' := if t = [] then pi - 1 else pi
    regexpGo text m.2 pi' parts' (items ++ [⟨seg text m.1 m.2, pi'⟩]) ms

/-- `preserve.Regexp` (src/text/preserve/preserve_test.go appendix, lines
166-187): split `text` at `matches`, then append the trailing substring if
`textStart < len(text)`. -/
def Regexp (matchList : List (Nat × Nat)) (text : Str) : List Str × List Item :=
  let (parts, items, textStart) := regexpGo text 0 0 [] [] matchList
  (if textStart < text.length then parts ++ [text.drop textStart] else parts, items)

/-- The inner search of `preserve.Join`: find the first remaining item with
`Index == i`; the source then truncates `items` to `items[j+1:]`, discarding
the prefix up to and including the found item. -/
def joinFind (i : Nat) : List Item → Option (Str × List Item)
  | [] => none
  | item :: rest => if item.index = i then some (item.text, rest) else joinFind i rest

/-- The part loop of `preserve.Join`: before writing `parts[i]`, write at most
one item whose index equals `i` (the first one found), dropping all items up
to and including it. -/
def joinGo : Nat → List Str → List Item → Str
  | _, [], _ => []
  | i, part :: parts, items =>
    match joinFind i items with
    | some (t, rest) => t ++ part ++ joinGo (i + 1) parts rest
    | none => part ++ joinGo (i + 1) parts items

/-- `preserve.Join` (same appendix, lines 200-219): `strings.Join(parts, "")`
when there are no items, otherwise the part loop. -/
def Join (parts : List Str) (items : List Item) : Str :=
  if items = [] then parts.flatten else joinGo 0 parts items

/-! ## JSON lexer (src/json/internal/lex/lex.go) and ranger (src/json/json.go) -/

/-- Go's `unicode.IsSpace`: the Latin-1 white space characters plus the
Unicode `White_Space` code points above `0xFF`. -/
def goIsSpace (c : Char) : Bool :=
  c.toNat ∈ [0x9, 0xA, 0xB, 0xC, 0xD, 0x20, 0x85, 0xA0,
    0x1680, 0x2000, 0x2001, 0x2002, 0x2003, 0x2004, 0x2005, 0x2006, 0x2007,
    0x2008, 0x2009, 0x200A, 0x2028, 0x2029, 0x202F, 0x205F, 0x3000]

/-- `lex.TokenType` (`Error`, `EOF`, `String`). -/
inductive TokenType where
  | error
  | eof
  | string
deriving DecidableEq, Repr

/-- `lex.Token`: position, type and literal value (for a `String` token the
value includes the surrounding quotes). -/
structure Token where
  pos : Nat
  type : TokenType
  value : Str
deriving DecidableEq, Repr

/-- Ghost trace of one `lexString` pass: an emitted string value
(`strTok q0 q1` with opening quote at `q0` and closing quote at `q1`), a
skipped property key (`keySkip q0 q1 colon`, the colon sitting at `colon`),
or the terminal EOF emission. -/
inductive LexEvent where
  | strTok (q0 q1 : Nat)
  | keySkip (q0 q1 colon : Nat)
  | eofTok (p : Nat)
deriving DecidableEq, Repr

/-- Control points of `lexString` (src/json/internal/lex/lex.go lines
249-312): scanning for an opening quote (`seek`, the `skipUntil('"')` loop),
inside a string body (`body q0`, the `skipUntil('"', '\\')` loop), just after
a backslash (`escape q0`, where the next rune is consumed unconditionally),
or after the closing quote (`close q0 q1`, the `skipWhitespace` + colon
check). -/
inductive LexState where
  | seek
  | body (q0 : Nat)
  | escape (q0 : Nat)
  | close (q0 q1 : Nat)
deriving DecidableEq, Repr

/-- One pass of the `lexString` state machine over the remaining input, `p`
being the absolute position of the head character.  At end of input every
state emits the terminal EOF token (`emitEOF`), except that a pending closed
string is emitted first (the `default` branch of the colon check fires on
`eof` and backs up).  In state `close`, a non-space non-colon character `c`
emits the string and is reprocessed by the next `lexString` round: `skipUntil`
consumes it, opening a new body if it is a quote. -/
def lexRun : List Char → Nat → LexState → List LexEvent
  | [], p, .seek => [.eofTok p]
  | [], p, .body _ => [.eofTok p]
  | [], p, .escape _ => [.eofTok p]
  | [], p, .close q0 q1 => [.strTok q0 q1, .eofTok p]
  | c :: rest, p, .seek =>
    if c = '\"' then lexRun rest (p + 1) (.body p) else lexRun rest (p + 1) .seek
  | c :: rest, p, .body q0 =>
    if c = '\"' then lexRun rest (p + 1) (.close q0 p)
    else if c = '\\' then lexRun rest (p + 1) (.escape q0)
    else lexRun rest (p + 1) (.body q0)
  | _ :: rest, p, .escape q0 => lexRun rest (p + 1) (.body q0)
  | c :: rest, p, .close q0 q1 =>
    if goIsSpace c then lexRun rest (p + 1) (.close q0 q1)
    else if c = ':' then .keySkip q0 q1 p :: lexRun rest (p + 1) .seek
    else
      .strTok q0 q1 ::
        (if c = '\"' then lexRun rest (p + 1) (.body p) else lexRun rest (p + 1) .seek)

/-- The full event trace of `lex.Lex` on an in-memory input. -/
def lexEvents (input : Str) : List LexEvent :=
  lexRun input 0 .seek

/-- Token emission from the trace: `strTok q0 q1` emits a `String` token at
`Pos = q0` whose value is the quoted literal `input[q0 : q1+1]`; key skips
emit nothing; `eofTok p` is the terminal `EOF` token.  An in-memory reader
produces no read errors and `lexString` never calls `errorf`, so no `Error`
token arises. -/
def eventTokens (input : Str) : List LexEvent → List Token
  | [] => []
  | .strTok q0 q1 :: es => ⟨q0, .string, seg input q0 (q1 + 1)⟩ :: eventTokens input es
  | .keySkip _ _ _ :: es => eventTokens input es
  | .eofTok p :: es => ⟨p, .eof, []⟩ :: eventTokens input es

/-- The token stream of `lex.Lex` on `input`. -/
def lexTokens (input : Str) : List Token :=
  eventTokens input (lexEvents input)

/-- The goroutine body of `ranger.Ranges` (src/json/json.go lines 25-40):
walk the tokens, stopping at `Error` (reporting an error) or `EOF`, and for
each `String` token at `pos` with value `v` emit the inner range
`[pos+1, pos+len(v)-1)`.  Returns the ranges and whether an error was sent. -/
def rangerRanges : List Token → List Range × Bool
  | [] => ([], false)
  | t :: ts =>
    match t.type with
    | .error => ([], true)
    | .eof => ([], false)
    | .string =>
      let (rs, e) := rangerRanges ts
      (⟨t.pos + 1, t.pos + t.value.length - 1⟩ :: rs, e)

/-- The ranges produced by the JSON ranger on `input`. -/
def jsonRanges (input : Str) : List Range :=
  (rangerRanges (lexTokens input)).1

/-- Whether the JSON ranger reported an error on `input`. -/
def jsonRangerErrored (input : Str) : Bool :=
  (rangerRanges (lexTokens input)).2

/-- The quote-enclosed inner ranges of the string-token events (what the
JSON ranger computes from the emitted tokens). -/
def rangesOfEvents (es : List LexEvent) : List Range :=
  es.filterMap fun e =>
    match e with
    | .strTok q0 q1 => some ⟨q0 + 1, q1⟩
    | _ => none

/-- The key regions of the key-skip events: the closed interval from the
key's opening quote to the following colon. -/
def keysOfEvents (es : List LexEvent) : List (Nat × Nat) :=
  es.filterMap fun e =>
    match e with
    | .keySkip q0 _ colon => some (q0, colon)
    | _ => none

/-- The key regions recognised by the lexer on `input`. -/
def lexKeyRegions (input : Str) : List (Nat × Nat) :=
  keysOfEvents (lexEvents input)

/-- First non-whitespace position at or after `i` (the `skipWhitespace` /
`next` sequence after a closing quote); `input.length` when none remains. -/
def firstNonSpace (input : Str) (i : Nat) : Nat :=
  i + ((input.drop i).takeWhile goIsSpace).length

/-! ## Translation orchestrator (src/dragoman.go, first revision) -/

/-- The POSIX `[[:punct:]]` class used by `punctRE`: the ASCII ranges
0x21-0x2F, 0x3A-0x40, 0x5B-0x60 and 0x7B-0x7E. -/
def goIsPunct (c : Char) : Bool :=
  (0x21 ≤ c.toNat ∧ c.toNat ≤ 0x2F) ∨ (0x3A ≤ c.toNat ∧ c.toNat ≤ 0x40) ∨
    (0x5B ≤ c.toNat ∧ c.toNat ≤ 0x60) ∨ (0x7B ≤ c.toNat ∧ c.toNat ≤ 0x7E)

/-- `isPunctuation` (src/dragoman.go lines 278-284): whether the string
matches `^[[:punct:]]+$` (non-empty, all ASCII punctuation). -/
def isPunctuation (s : Str) : Bool :=
  !s.isEmpty && s.all goIsPunct

/-- Errors surfaced by the orchestrator model: a wrapped `Extract` failure,
a backend (`Service.Translate`) failure, or a wrapped `ReplaceMany` failure. -/
inductive TranslateErr where
  | extractErr (e : RangeErr)
  | serviceErr (msg : Str)
  | replaceErr (e : ReplaceErr)
deriving DecidableEq, Repr

/-- A translation backend: `Service.Translate` restricted to fixed language
arguments, as a pure function from the fragment text to a result. -/
abbrev Service := Str → Except Str Str

/-- The leading whitespace collected by the `TrimLeftFunc` closure in
`translateRange` (in input order). -/
def leftSpaceOf (part : Str) : Str :=
  part.takeWhile goIsSpace

/-- The trailing whitespace collected by the `TrimRightFunc` closure in
`translateRange`.  `TrimRightFunc` visits runes from the right, so the
closure appends them right-to-left: the list is the trailing whitespace
REVERSED, exactly as the source builds (and later writes) it. -/
def rightSpaceOf (part : Str) : Str :=
  ((part.dropWhile goIsSpace).reverse).takeWhile goIsSpace

/-- The part with leading and trailing whitespace trimmed (the value of
`part` after both `TrimLeftFunc` and `TrimRightFunc`). -/
def coreOf (part : Str) : Str :=
  (((part.dropWhile goIsSpace).reverse).dropWhile goIsSpace).reverse

/-- The loop body of `translateRange` (src/dragoman.go lines 237-273) for
one part: trim whitespace, skip pure punctuation (`continue`, leaving the
part untouched), otherwise call the backend on the trimmed core and rebuild
`leftSpace + translated + rightSpace` (with `rightSpace` in the reversed
order the source collected it).  Returns the new part and the list of texts
sent to the backend. -/
def processPart (svc : Service) (part : Str) : Except TranslateErr (Str × List Str) :=
  let ls := leftSpaceOf part
  let rs := rightSpaceOf part
  let core := coreOf part
  if isPunctuation core then .ok (part, [])
  else
    match svc core with
    | .error msg => .error (.serviceErr msg)
    | .ok translated =>
      if ls = [] ∧ rs = [] then .ok (translated, [core])
      else .ok (ls ++ translated ++ rs, [core])

/-- The `for i, part := range parts` loop of `translateRange`, collecting the
rewritten parts and all backend calls. -/
def processParts (svc : Service) : List Str → Except TranslateErr (List Str × List Str)
  | [] => .ok ([], [])
  | part :: rest =>
    match processPart svc part with
    | .error e => .error e
    | .ok (part', calls) =>
      match processParts svc rest with
      | .error e => .error e
      | .ok (rest', calls') => .ok (part' :: rest', calls ++ calls')

/-- A preserve configuration: `none` models `cfg.preserve == nil`; otherwise
the function yields, for each extracted fragment, the match intervals that
Go's `cfg.preserve.FindAllStringIndex` would return on it. -/
abbrev PreserveCfg := Option (Str → List (Nat × Nat))

/-- `translateRange` (src/dragoman.go lines 218-276): extract the range,
split by the preserve pattern (or use the fragment as the single part),
process every part, and `preserve.Join` the results.  The second component
accumulates the texts sent to the backend. -/
def translateRange (svc : Service) (preserve : PreserveCfg) (input : Str) (r : Range) :
    Except TranslateErr (Str × List Str) :=
  match Extract input r with
  | .error e => .error (.extractErr e)
  | .ok extracted =>
    let (parts, preserved) :=
      match preserve with
      | none => ([extracted], ([] : List Item))
      | some matcher => Regexp (matcher extracted) extracted
    match processParts svc parts with
    | .error e => .error e
    | .ok (parts', calls) => .ok (Join parts' preserved, calls)

/-- The worker loop of `translateRanges` (src/dragoman.go lines 144-216):
with `workers = max(cfg.parallel, 0)` equal to zero no range is consumed and
no translation happens; otherwise every range is translated (the first error
aborting the call).  Workers race in Go; the model fixes document order,
which is sound because `ReplaceMany` sorts by range start. -/
def translateRanges (svc : Service) (preserve : PreserveCfg) (parallel : Int)
    (input : Str) : List Range → Except TranslateErr (List (Range × Str) × List Str)
  | [] => .ok ([], [])
  | r :: rest =>
    match translateRange svc preserve input r with
    | .error e => .error e
    | .ok (t, calls) =>
      match translateRanges svc preserve parallel input rest with
      | .error e => .error e
      | .ok (trs, calls') => .ok ((r, t) :: trs, calls ++ calls')

/-- `Translator.Translate` (src/dragoman.go lines 42-111) with the ranger's
output given as a pure list of ranges: collect the translated ranges (none
when `max(parallel, 0) == 0`), build the replacement list, and apply
`ReplaceMany` to the buffered input.  Returns the output bytes and the list
of backend calls made. -/
def TranslatorTranslate (svc : Service) (preserve : PreserveCfg) (parallel : Int)
    (ranges : List Range) (input : Str) : Except TranslateErr (Str × List Str) :=
  let workers : Nat := if parallel < 0 then 0 else parallel.toNat
  match (if workers = 0 then .ok ([], []) else translateRanges svc preserve parallel input ranges :
      Except TranslateErr (List (Range × Str) × List Str)) with
  | .error e => .error e
  | .ok (translations, calls) =>
    match ReplaceMany input (translations.map fun tr => ⟨tr.1, tr.2⟩) with
    | .error e => .error (.replaceErr e)
    | .ok out => .ok (out, calls)

/-! ## HTML ranger (src/format/html/html.go)

The `golang.org/x/net/html` tokenizer is an external dependency; its token
stream enters the model as a list of `HTMLToken` values carrying exactly the
fields the ranger reads: the token type, the raw bytes (`tokenizer.Raw()`),
the data (`Token.Data`: text content, or tag name for tags), the attribute
count (`len(Token.Attr)`) and the re-rendered tag (`Token.String()`).  The
`attrRE` regular expression is modelled by an executable matcher for the
fixed pattern `([[:word:]]+?)="(.+?)"` under Go's leftmost-first (lazy)
semantics. -/

/-- `[[:word:]]`: ASCII letters, digits and underscore. -/
def isWordChar (c : Char) : Bool :=
  (0x30 ≤ c.toNat ∧ c.toNat ≤ 0x39) ∨ (0x41 ≤ c.toNat ∧ c.toNat ≤ 0x5A) ∨
    (0x61 ≤ c.toNat ∧ c.toNat ≤ 0x7A) ∨ c.toNat = 0x5F

/-- One match of `attrRE`: the NAME group spans `[start, eq)`, the literal
`="` sits at `eq`, and the VALUE group spans `[eq+2, valEnd)` with the
closing quote at `valEnd`; the whole match is `[start, valEnd+1)`. -/
structure AttrMatch where
  start : Nat
  eq : Nat
  valEnd : Nat
deriving DecidableEq, Repr

/-- The unique candidate match of `attrRE` starting at position `j`: the lazy
NAME must be the maximal word run from `j` (an `=` can only follow the run),
then `="`, then the lazy VALUE ends at the first quote leaving a non-empty
value; `.` does not match a newline, so a newline before that quote kills the
candidate. -/
def candidateAt (s : Str) (j : Nat) : Option AttrMatch :=
  let runLen := ((s.drop j).takeWhile isWordChar).length
  if runLen = 0 then none
  else
    let k := j + runLen
    if s[k]? = some '=' ∧ s[k + 1]? = some '\"' then
      match (s.drop (k + 3)).findIdx? (fun c => c = '\"') with
      | none => none
      | some idx =>
        let q := k + 3 + idx
        if (seg s (k + 2) q).contains '\n' then none
        else some ⟨j, k, q⟩
    else none

/-- Leftmost-first scan of `attrRE.FindAllStringIndex(s, -1)`: try each start
position in order, resuming after the end of every match.  The fuel
`s.length + 1` dominates the number of iterations since the position strictly
increases. -/
def findAttrGo (s : Str) : Nat → Nat → List AttrMatch
  | 0, _ => []
  | fuel + 1, j =>
    if j < s.length then
      match candidateAt s j with
      | some m => m :: findAttrGo s fuel (m.valEnd + 1)
      | none => findAttrGo s fuel (j + 1)
    else []

/-- All matches of `attrRE` in `s`. -/
def findAttrMatches (s : Str) : List AttrMatch :=
  findAttrGo s (s.length + 1) 0

/-- `attrRE.ReplaceAllString(s, template)`: keep the text between matches and
replace every match by `f` applied to it (the template expands a capture
group). -/
def spliceMatches (s : Str) (f : AttrMatch → Str) : Nat → List AttrMatch → Str
  | pos, [] => s.drop pos
  | pos, m :: ms => seg s pos m.start ++ f m ++ spliceMatches s f (m.valEnd + 1) ms

/-- Replace every `attrRE` match in `s` by a function of the match. -/
def replaceAllBy (s : Str) (f : AttrMatch → Str) : Str :=
  spliceMatches s f 0 (findAttrMatches s)

/-- Whether `sub` is a prefix of `s`. -/
def strStartsWith : Str → Str → Bool
  | _, [] => true
  | [], _ :: _ => false
  | c :: s, d :: t => (c = d) && strStartsWith s t

/-- `strings.Index(s, sub)` (first argument here is `sub`): index of the
first occurrence, `none` when absent (Go returns -1; in `rangeAttributes` the
value is always a substring of the match, so that branch is unreachable). -/
def strIndexOf (sub : Str) : Str → Option Nat
  | [] => if sub = [] then some 0 else none
  | c :: rest =>
    if strStartsWith (c :: rest) sub then some 0
    else (strIndexOf sub rest).map (· + 1)

/-- Token types of the `x/net/html` tokenizer that the ranger distinguishes. -/
inductive HTMLTokenType where
  | text
  | startTag
  | selfClosingTag
  | endTag
  | comment
  | doctype
deriving DecidableEq, Repr

/-- The fields of an `x/net/html` token read by the ranger. -/
structure HTMLToken where
  ttype : HTMLTokenType
  raw : Str
  data : Str
  attrCount : Nat
  rendered : Str
deriving DecidableEq, Repr

/-- `html.WithAttribute(name, tags...)` (src/format/html/html.go lines
44-56): select `name` for every tag when `tags` is empty, otherwise only when
the token's tag name is listed. -/
def withAttribute (name : Str) (tags : List Str) : HTMLToken → List Str :=
  fun tok =>
    if tags = [] then [name]
    else if tags.contains tok.data then [name] else []

/-- `ranger.filterAttributes` (lines 125-136): nothing without attributes or
without configured attribute functions, otherwise the merged results. -/
def filterAttributes (fns : List (HTMLToken → List Str)) (t : HTMLToken) : List Str :=
  if t.attrCount = 0 then []
  else
    match fns with
    | [] => []
    | _ => fns.flatMap fun f => f t

/-- `ranger.rangeAttributes` (lines 142-172): for every `attrRE` match in the
re-rendered tag, extract the attribute name via `ReplaceAllString` with the
NAME group; if it is allowed, extract the value via the VALUE group, locate
the value inside the match with `strings.Index`, and emit the value's range
within the tag. -/
def rangeAttributes (tok : HTMLToken) (attrs : List Str) : List Range :=
  let fullTag := tok.rendered
  (findAttrMatches fullTag).filterMap fun m =>
    let attr := seg fullTag m.start (m.valEnd + 1)
    let name := replaceAllBy attr fun mm => seg attr mm.start mm.eq
    if attrs.contains name then
      let val := replaceAllBy attr fun mm => seg attr (mm.eq + 2) mm.valEnd
      let offset := (strIndexOf val attr).getD 0
      let start := m.start + offset
      some ⟨start, start + val.length⟩
    else none

/-- The token loop of the HTML `ranger.Ranges` goroutine (lines 62-123):
track the running byte position; a text token whose `TrimSpace`d data is
non-empty yields its raw extent; a start or self-closing tag yields its
attribute-value ranges shifted by the position; everything else only advances
the position. -/
def htmlRangesGo (fns : List (HTMLToken → List Str)) : Nat → List HTMLToken → List Range
  | _, [] => []
  | pos, tok :: rest =>
    let l := tok.raw.length
    (match tok.ttype with
      | .text => if (coreOf tok.data).isEmpty then [] else [⟨pos, pos + l⟩]
      | .startTag =>
        match filterAttributes fns tok with
        | [] => []
        | attrs => (rangeAttributes tok attrs).map fun r => ⟨r.start + pos, r.stop + pos⟩
      | .selfClosingTag =>
        match filterAttributes fns tok with
        | [] => []
        | attrs => (rangeAttributes tok attrs).map fun r => ⟨r.start + pos, r.stop + pos⟩
      | _ => []) ++ htmlRangesGo fns (pos + l) rest

/-- The ranges emitted by the HTML ranger over a token stream. -/
def htmlRanges (fns : List (HTMLToken → List Str)) (toks : List HTMLToken) : List Range :=
  htmlRangesGo fns 0 toks

/-! ## Specification-side vocabulary used by the theorems -/

/-- Two replacements do not overlap: one range ends before the other starts. -/
def NonOverlap (a b : Replacement) : Prop :=
  a.range.stop ≤ b.range.start ∨ b.range.stop ≤ a.range.start

instance : DecidableRel NonOverlap := fun a b => by
  unfold NonOverlap; infer_instance

/-- A replacement list forms a well-formed chain starting at `pos` inside an
input of length `n`: starts are reached in order and every range is
well-formed and in bounds. -/
def chainB (n : Nat) : Nat → List Replacement → Bool
  | _, [] => true
  | pos, r :: rest =>
    decide (pos ≤ r.range.start) && decide (r.range.start ≤ r.range.stop) &&
      decide (r.range.stop ≤ n) && chainB n r.range.stop rest

/-- A range list forms a well-formed chain starting at `pos`. -/
def rangeChainB (n : Nat) : Nat → List Range → Bool
  | _, [] => true
  | pos, r :: rest =>
    decide (pos ≤ r.start) && decide (r.start ≤ r.stop) && decide (r.stop ≤ n) &&
      rangeChainB n r.stop rest

/-- The canonical splice of a chain of replacements: the untouched segment up
to each range, the replacement text in its place, and the tail after the last
range. -/
def canonicalFrom (input : Str) : Nat → List Replacement → Str
  | pos, [] => input.drop pos
  | pos, r :: rest => seg input pos r.range.start ++ r.text ++ canonicalFrom input r.range.stop rest

/-- Net length change of a replacement list (replacement text length minus
range length, summed). -/
def diffSum (repls : List Replacement) : Int :=
  (repls.map fun r => (r.text.length : Int) - ((r.range.stop : Int) - (r.range.start : Int))).sum

/-- Where an input position `i` lands in the output: shifted by the length
changes of all replacements that end at or before `i`. -/
def shiftAt (repls : List Replacement) (i : Nat) : Int :=
  (i : Int) + diffSum (repls.filter fun r => decide (r.range.stop ≤ i))

/-- Whether a `ReplaceMany` outcome is a `RangeError` (the wrapped `Extract`
failure); a Go slice-bounds panic is not a `RangeError`. -/
def returnsRangeError (res : Except ReplaceErr Str) : Bool :=
  match res with
  | .error (.extractErr _) => true
  | _ => false

/-- Start position of a lexer event. -/
def evLo : LexEvent → Nat
  | .strTok q0 _ => q0
  | .keySkip q0 _ _ => q0
  | .eofTok p => p

/-- End position of a lexer event (closing quote, colon, or EOF position). -/
def evHi : LexEvent → Nat
  | .strTok _ q1 => q1
  | .keySkip _ _ colon => colon
  | .eofTok p => p

/-- The lower bound on positions that a lexer state can still reference. -/
def stLo : LexState → Nat → Nat
  | .seek, p => p
  | .body q0, _ => q0
  | .escape q0, _ => q0
  | .close q0 _, _ => q0

/-- Well-formedness of an emitted lexer event with respect to the input: a
string token spans a quoted literal whose closing quote is not followed
(after whitespace) by a colon; a key skip spans a quoted literal whose first
non-space successor is the recorded colon; the EOF event sits at the end. -/
def EventOK (input : Str) : LexEvent → Prop
  | .strTok q0 q1 =>
    q0 < q1 ∧ q1 < input.length ∧ input[q0]? = some '\"' ∧ input[q1]? = some '\"' ∧
      input[firstNonSpace input (q1 + 1)]? ≠ some ':'
  | .keySkip q0 q1 colon =>
    q0 < q1 ∧ q1 < colon ∧ colon < input.length ∧ input[q0]? = some '\"' ∧
      input[q1]? = some '\"' ∧ input[colon]? = some ':' ∧
      firstNonSpace input (q1 + 1) = colon
  | .eofTok p => p = input.length

/-- Invariant tying a lexer state to the position reached. -/
def StateOK (input : Str) (p : Nat) : LexState → Prop
  | .seek => True
  | .body q0 => q0 < p ∧ input[q0]? = some '\"'
  | .escape q0 => q0 < p ∧ input[q0]? = some '\"'
  | .close q0 q1 =>
    q0 < q1 ∧ q1 < p ∧ input[q0]? = some '\"' ∧ input[q1]? = some '\"' ∧
      firstNonSpace input (q1 + 1) = firstNonSpace input p

/-- Whether the remaining input, read from inside a string body, ends before
the closing double quote (a backslash consuming the following rune). -/
def bodyUnterminated : List Char → Bool
  | [] => true
  | [c] => if c = '\"' then false else true
  | c :: d :: rest =>
    if c = '\"' then false
    else if c = '\\' then bodyUnterminated rest
    else bodyUnterminated (d :: rest)

end Dragoman

/-! ## Model validation

Concrete evaluations of the embedded functions against the repository's own
test vectors (extract_test.go, replace_test.go, preserve_test.go,
lex_test.go, html_test.go, dragoman_test.go), plus the inputs exercised by
the claims. -/

section Validation
open Dragoman

example : Extract "ab".toList ⟨0, 1⟩ = .ok ['a'] := by decide

example : Extract "ab".toList ⟨5, 5⟩ = .ok [] := by decide

example : Extract "ab".toList ⟨2, 3⟩ = .error (.startPastEnd ⟨2, 3⟩) := by decide

example :
    ReplaceMany "This is a sentence.".toList
      [⟨⟨5, 7⟩, "was".toList⟩] = .ok "This was a sentence.".toList := by decide

example :
    ReplaceMany "abcdefg".toList
      [⟨⟨2, 5⟩, "XY".toList⟩, ⟨⟨2, 2⟩, "Z".toList⟩] = .ok "aZbXYfg".toList := by decide

example :
    ReplaceMany "abcd".toList
      [⟨⟨0, 2⟩, "X".toList⟩, ⟨⟨1, 3⟩, "Y".toList⟩] = .ok "Yd".toList := by decide

-- preserve_test.go "single placeholder": matches of `{[a-zA-Z0-9]+?}` in
-- "Hello, {firstName}, how are you?" are [[7,18]].
example :
    Regexp [(7, 18)] "Hello, \x7bfirstName\x7d, how are you?".toList =
      (["Hello, ".toList, ", how are you?".toList],
        [⟨"\x7bfirstName\x7d".toList, 1⟩]) := by decide

-- preserve_test.go "many placeholders".
example :
    Regexp [(0, 10), (12, 23), (37, 42)]
        "\x7bgreeting\x7d, \x7bfirstName\x7d, how are you \x7bday\x7d?".toList =
      ([", ".toList, ", how are you ".toList, "?".toList],
        [⟨"\x7bgreeting\x7d".toList, 0⟩, ⟨"\x7bfirstName\x7d".toList, 1⟩,
          ⟨"\x7bday\x7d".toList, 2⟩]) := by decide

-- preserve_test.go TestJoin "many items".
example :
    Join [", ".toList, ", how are you ".toList, "?".toList]
        [⟨"\x7bgreeting\x7d".toList, 0⟩, ⟨"\x7bfirstName\x7d".toList, 1⟩,
          ⟨"\x7bday\x7d".toList, 2⟩] =
      "\x7bgreeting\x7d, \x7bfirstName\x7d, how are you \x7bday\x7d?".toList := by decide

-- The round-trip failure: a text that IS a single match.
example : Regexp [(0, 3)] "\x7bx\x7d".toList = ([], [⟨"\x7bx\x7d".toList, 0⟩]) := by decide

example : Join [] [⟨"\x7bx\x7d".toList, 0⟩] = [] := by decide

-- Trailing-match failure: "ab{x}" with match [[2,5]].
example :
    Join (Regexp [(2, 5)] "ab\x7bx\x7d".toList).1 (Regexp [(2, 5)] "ab\x7bx\x7d".toList).2 =
      "ab".toList := by decide

-- lex_test.go "empty file" and "empty file with whitespace".
example : lexTokens "".toList = [⟨0, .eof, []⟩] := by decide
example : lexTokens "   ".toList = [⟨3, .eof, []⟩] := by decide

-- lex_test.go "string, well-formed".
example :
    lexTokens "\"This is a test.\"".toList =
      [⟨0, .string, "\"This is a test.\"".toList⟩, ⟨17, .eof, []⟩] := by decide

-- lex_test.go "string, with quotes".
example :
    lexTokens "\"This \\\" is a \\\"test\\\".\"".toList =
      [⟨0, .string, "\"This \\\" is a \\\"test\\\".\"".toList⟩, ⟨24, .eof, []⟩] := by decide

-- lex_test.go "flat object, well-formed".
example :
    (lexTokens "\x7b\"title\": \"This is a title.\", \"description\": \"This is a description.\"\x7d".toList).map
        (fun t => (t.pos, t.type)) =
      [(10, .string), (45, .string), (70, .eof)] := by decide

-- lex_test.go "flat object, ugly" (whitespace before the colon).
example :
    (lexTokens "\x7b\"title\"   :   \"This is a title.\", \"description\"      :\"This is a description.\"\x7d".toList).map
        (fun t => (t.pos, t.type)) =
      [(15, .string), (55, .string), (80, .eof)] := by decide

-- lex_test.go "flat array, well-formed".
example :
    (lexTokens "[\"Hello\", \"Bye\", \"How are you?\"]".toList).map (fun t => (t.pos, t.type)) =
      [(1, .string), (10, .string), (17, .string), (32, .eof)] := by decide

-- Unterminated string: EOF only, no String and no Error token.
example : lexTokens "\x7b\"title\": \"Unterminated".toList = [⟨23, .eof, []⟩] := by decide

-- Ranger ranges for the flat object: the quote-enclosed inner texts.
example :
    jsonRanges "\x7b\"title\": \"This is a title.\"\x7d".toList = [⟨11, 27⟩] := by decide

example :
    lexKeyRegions "\x7b\"title\": \"This is a title.\"\x7d".toList = [(1, 8)] := by decide

-- The attrRE matcher on the rendered tag of the C9 scenario.
example :
    findAttrMatches "<p title=\"A title tag.\">".toList = [⟨3, 8, 22⟩] := by decide

example :
    rangeAttributes
        ⟨.startTag, "<p title=\"A title tag.\">".toList, "p".toList, 1,
          "<p title=\"A title tag.\">".toList⟩
        ["title".toList] = [⟨10, 22⟩] := by decide

-- Full C9 scenario: `<p title="A title tag.">Hello.</p>` with selector p.title.
example :
    htmlRanges [withAttribute "title".toList ["p".toList]]
        [⟨.startTag, "<p title=\"A title tag.\">".toList, "p".toList, 1,
            "<p title=\"A title tag.\">".toList⟩,
          ⟨.text, "Hello.".toList, "Hello.".toList, 0, "Hello.".toList⟩,
          ⟨.endTag, "</p>".toList, "p".toList, 0, "</p>".toList⟩] =
      [⟨10, 22⟩, ⟨24, 30⟩] := by decide

-- Text-only scenario: `<p>Hello.</p>` has only the text range.
example :
    htmlRanges [withAttribute "title".toList ["p".toList]]
        [⟨.startTag, "<p>".toList, "p".toList, 0, "<p>".toList⟩,
          ⟨.text, "Hello.".toList, "Hello.".toList, 0, "Hello.".toList⟩,
          ⟨.endTag, "</p>".toList, "p".toList, 0, "</p>".toList⟩] =
      [⟨3, 9⟩] := by decide

-- dragoman_test.go "Punctuation handling": input "!-/:-@[-`{-~", one range
-- over the whole input, no backend call, output identical.
example :
    TranslatorTranslate (fun _ => .error "no call expected".toList) none 1
        [⟨0, 12⟩] "!-/:-@[-`\x7b-~".toList =
      .ok ("!-/:-@[-`\x7b-~".toList, []) := by decide

-- Parallel(0) / Parallel(-1): no work, output equals input.
example :
    TranslatorTranslate (fun _ => .error "no call expected".toList) none 0
        [⟨0, 4⟩] "abcd".toList = .ok ("abcd".toList, []) := by decide

-- The whitespace-reversal defect: trailing " \n" comes back as "\n ".
example :
    translateRange (fun s => .ok s) none "Hi \n".toList ⟨0, 4⟩ =
      .ok ("Hi\n ".toList, ["Hi".toList]) := by decide

-- Translation with a preserve pattern (dragoman_test.go preserve scenario,
-- fragment "Hello, {firstName}. Today is {day}." with matches [[7,18],[29,34]]).
example :
    translateRange
        (fun s =>
          if s = "Hello,".toList then .ok "Hallo,".toList
          else if s = ". Today is".toList then .ok ". Heute ist".toList
          else .error "unexpected".toList)
        (some fun _ => [(7, 18), (29, 34)])
        "Hello, \x7bfirstName\x7d. Today is \x7bday\x7d.".toList ⟨0, 35⟩ =
      .ok ("Hallo, \x7bfirstName\x7d. Heute ist \x7bday\x7d.".toList,
        ["Hello,".toList, ". Today is".toList]) := by decide

end Validation

namespace Dragoman

/-! ## Lemmas about Extract and the replacement engine -/

theorem seg_length {input : Str} {a b : Nat} (hab : a ≤ b) (hb : b ≤ input.length) :
    (seg input a b).length = b - a := by
  simp only [seg, List.length_take, List.length_drop]
  omega

theorem extract_ok_of_wf {input : Str} {r : Range} (h1 : r.start ≤ r.stop)
    (h2 : r.stop ≤ input.length) : Extract input r = .ok (seg input r.start r.stop) := by
  unfold Extract
  rcases Nat.eq_or_lt_of_le h1 with heq | hlt
  · rw [if_pos heq.symm]
    simp [seg, ← heq]
  · rw [if_neg (by omega), if_neg (by omega), if_neg (by omega), if_neg (by omega)]
    rfl

theorem chainB_mem {n : Nat} :
    ∀ {repls : List Replacement} {pos : Nat}, chainB n pos repls = true →
      ∀ r ∈ repls, pos ≤ r.range.start ∧ r.range.start ≤ r.range.stop ∧ r.range.stop ≤ n
  | [], _, _, r, hr => by cases hr
  | r₀ :: rest, pos, h, r, hr => by
    simp only [chainB, Bool.and_eq_true, decide_eq_true_eq] at h
    obtain ⟨⟨⟨h1, h2⟩, h3⟩, h4⟩ := h
    rcases List.mem_cons.mp hr with rfl | hmem
    · exact ⟨h1, h2, h3⟩
    · have := chainB_mem h4 r hmem
      exact ⟨by omega, this.2.1, this.2.2⟩

theorem chainB_le {n : Nat} {repls : List Replacement} {pos pos' : Nat}
    (h : chainB n pos repls = true) (hle : pos' ≤ pos) : chainB n pos' repls = true := by
  cases repls with
  | nil => rfl
  | cons r rest =>
    simp only [chainB, Bool.and_eq_true, decide_eq_true_eq] at h ⊢
    exact ⟨⟨⟨by omega, h.1.1.2⟩, h.1.2⟩, h.2⟩

theorem spliceLoop_chain (input : Str) (repls : List Replacement) :
    ∀ (acc : Str) (pos : Nat), pos ≤ input.length →
      chainB input.length pos repls = true →
      spliceLoop input ((acc.length : Int) - (pos : Int)) (acc ++ input.drop pos) repls =
        .ok (acc ++ canonicalFrom input pos repls) := by
  induction repls with
  | nil => intro acc pos _ _; rfl
  | cons r rest ih =>
    intro acc pos hpos hchain
    simp only [chainB, Bool.and_eq_true, decide_eq_true_eq] at hchain
    obtain ⟨⟨⟨h1, h2⟩, h3⟩, h4⟩ := hchain
    have houtlen : (acc ++ input.drop pos).length = acc.length + (input.length - pos) := by
      simp [List.length_append]
    have hcond : 0 ≤ (r.range.start : Int) + ((acc.length : Int) - (pos : Int)) ∧
        (r.range.start : Int) + ((acc.length : Int) - (pos : Int)) ≤
          ((acc ++ input.drop pos).length : Int) ∧
        0 ≤ (r.range.stop : Int) + ((acc.length : Int) - (pos : Int)) ∧
        (r.range.stop : Int) + ((acc.length : Int) - (pos : Int)) ≤
          ((acc ++ input.drop pos).length : Int) := by
      rw [houtlen]
      push_cast
      omega
    rw [spliceLoop, if_pos hcond, extract_ok_of_wf h2 h3]
    dsimp only
    have hta : ((r.range.start : Int) + ((acc.length : Int) - (pos : Int))).toNat =
        acc.length + (r.range.start - pos) := by omega
    have htb : ((r.range.stop : Int) + ((acc.length : Int) - (pos : Int))).toNat =
        acc.length + (r.range.stop - pos) := by omega
    rw [hta, htb, List.take_append, List.drop_append]
    have hddrop : (input.drop pos).drop (r.range.stop - pos) = input.drop r.range.stop := by
      rw [List.drop_drop]
      congr 1
      omega
    rw [hddrop]
    have hslen : (seg input pos r.range.start).length = r.range.start - pos :=
      seg_length h1 (by omega)
    have horg : (seg input r.range.start r.range.stop).length = r.range.stop - r.range.start :=
      seg_length h2 h3
    have hoff : (acc.length : Int) - (pos : Int) +
        ((r.text.length : Int) - ((seg input r.range.start r.range.stop).length : Int)) =
        (((acc ++ seg input pos r.range.start ++ r.text).length : Int) -
          (r.range.stop : Int)) := by
      simp only [List.length_append, hslen, horg]
      push_cast
      omega
    have harr : acc ++ (input.drop pos).take (r.range.start - pos) ++ r.text ++
        input.drop r.range.stop =
        acc ++ seg input pos r.range.start ++ r.text ++ input.drop r.range.stop := rfl
    rw [hoff, harr, ih (acc ++ seg input pos r.range.start ++ r.text) r.range.stop h3 h4]
    simp [canonicalFrom, List.append_assoc]

instance : IsTotal Replacement (fun a b => a.range.start ≤ b.range.start) :=
  ⟨fun a b => Nat.le_total a.range.start b.range.start⟩

instance : IsTrans Replacement (fun a b => a.range.start ≤ b.range.start) :=
  ⟨fun _ _ _ hab hbc => Nat.le_trans hab hbc⟩

theorem sortByStart_perm (repls : List Replacement) : (sortByStart repls).Perm repls :=
  List.perm_insertionSort _ repls

theorem sortByStart_sorted (repls : List Replacement) :
    (sortByStart repls).Sorted (fun a b => a.range.start ≤ b.range.start) :=
  List.sorted_insertionSort _ repls

theorem nonOverlap_symm : ∀ {x y : Replacement}, NonOverlap x y → NonOverlap y x := by
  intro x y h
  unfold NonOverlap at *
  tauto

theorem chainB_of_sorted {n : Nat} :
    ∀ {repls : List Replacement} {pos : Nat},
      repls.Sorted (fun a b => a.range.start ≤ b.range.start) →
      repls.Pairwise NonOverlap →
      repls.Pairwise (fun a b => a.range.start ≠ b.range.start) →
      (∀ r ∈ repls, r.range.start ≤ r.range.stop ∧ r.range.stop ≤ n) →
      (∀ r ∈ repls, pos ≤ r.range.start) →
      chainB n pos repls = true
  | [], _, _, _, _, _, _ => rfl
  | r :: rest, pos, hs, ho, hd, hwf, hpos => by
    have hwfr := hwf r (by simp)
    simp only [chainB, Bool.and_eq_true, decide_eq_true_eq]
    refine ⟨⟨⟨hpos r (by simp), hwfr.1⟩, hwfr.2⟩, ?_⟩
    exact chainB_of_sorted (List.Sorted.of_cons hs) (List.Pairwise.of_cons ho)
      (List.Pairwise.of_cons hd) (fun r' hr' => hwf r' (by simp [hr']))
      (fun r' hr' => by
        have hle := (List.sorted_cons.mp hs).1 r' hr'
        have hne := (List.pairwise_cons.mp hd).1 r' hr'
        have hov := (List.pairwise_cons.mp ho).1 r' hr'
        have hwfr' := hwf r' (by simp [hr'])
        rcases hov with h | h
        · exact h
        · omega)

theorem chainB_sorted_of_hyps {input : Str} {repls : List Replacement}
    (hwf : ∀ r ∈ repls, r.range.start ≤ r.range.stop ∧ r.range.stop ≤ input.length)
    (hno : repls.Pairwise NonOverlap)
    (hds : repls.Pairwise (fun a b => a.range.start ≠ b.range.start)) :
    chainB input.length 0 (sortByStart repls) = true := by
  refine chainB_of_sorted (sortByStart_sorted repls) ?_ ?_ ?_ (fun _ _ => Nat.zero_le _)
  · exact ((sortByStart_perm repls).pairwise_iff (fun h => nonOverlap_symm h)).mpr hno
  · exact ((sortByStart_perm repls).pairwise_iff (fun h => h ∘ Eq.symm)).mpr hds
  · intro r hr
    exact hwf r ((sortByStart_perm repls).mem_iff.mp hr)

theorem ReplaceMany_eq_canonical {input : Str} {repls : List Replacement}
    (hchain : chainB input.length 0 (sortByStart repls) = true) :
    ReplaceMany input repls = .ok (canonicalFrom input 0 (sortByStart repls)) := by
  have := spliceLoop_chain input (sortByStart repls) [] 0 (Nat.zero_le _) hchain
  simpa [ReplaceMany] using this

theorem canonical_length {input : Str} :
    ∀ {repls : List Replacement} {pos : Nat}, pos ≤ input.length →
      chainB input.length pos repls = true →
      ((canonicalFrom input pos repls).length : Int) =
        ((input.length : Int) - (pos : Int)) + diffSum repls
  | [], pos, hpos, _ => by
    simp only [canonicalFrom, List.length_drop, diffSum, List.map_nil, List.sum_nil]
    push_cast [Nat.cast_sub hpos]
    omega
  | r :: rest, pos, hpos, hchain => by
    simp only [chainB, Bool.and_eq_true, decide_eq_true_eq] at hchain
    obtain ⟨⟨⟨h1, h2⟩, h3⟩, h4⟩ := hchain
    have ih := @canonical_length input rest r.range.stop h3 h4
    simp only [canonicalFrom, List.length_append, diffSum, List.map_cons, List.sum_cons,
      seg_length h1 (by omega : r.range.start ≤ input.length)]
    simp only [diffSum] at ih
    push_cast [Nat.cast_sub h1] at ih ⊢
    omega

theorem canonical_get {input : Str} :
    ∀ {repls : List Replacement} {pos i : Nat},
      chainB input.length pos repls = true → pos ≤ i → i < input.length →
      (∀ r ∈ repls, i < r.range.start ∨ r.range.stop ≤ i) →
      0 ≤ (i : Int) - (pos : Int) +
          diffSum (repls.filter fun r => decide (r.range.stop ≤ i)) ∧
        (canonicalFrom input pos repls)[((i : Int) - (pos : Int) +
          diffSum (repls.filter fun r => decide (r.range.stop ≤ i))).toNat]? = input[i]?
  | [], pos, i, _, hpi, _, _ => by
    refine ⟨by simp [diffSum]; omega, ?_⟩
    simp only [canonicalFrom, diffSum, List.filter_nil, List.map_nil, List.sum_nil, add_zero]
    have ht : ((i : Int) - (pos : Int)).toNat = i - pos := by omega
    rw [ht, List.getElem?_drop]
    congr 1
    omega
  | r :: rest, pos, i, hchain, hpi, hil, hout => by
    simp only [chainB, Bool.and_eq_true, decide_eq_true_eq] at hchain
    obtain ⟨⟨⟨h1, h2⟩, h3⟩, h4⟩ := hchain
    have hseglen : (seg input pos r.range.start).length = r.range.start - pos :=
      seg_length h1 (by omega)
    rcases hout r (by simp) with hlt | hge
    · have hfilter : (r :: rest).filter (fun r => decide (r.range.stop ≤ i)) = [] := by
        refine List.filter_eq_nil_iff.mpr ?_
        intro r' hr'
        rcases List.mem_cons.mp hr' with rfl | hmem
        · simp only [decide_eq_true_eq]
          omega
        · have := chainB_mem h4 r' hmem
          simp only [decide_eq_true_eq]
          omega
      rw [hfilter]
      refine ⟨by simp [diffSum]; omega, ?_⟩
      simp only [diffSum, List.map_nil, List.sum_nil, add_zero]
      have ht : ((i : Int) - (pos : Int)).toNat = i - pos := by omega
      rw [ht]
      simp only [canonicalFrom]
      rw [List.getElem?_append, if_pos (by rw [List.length_append, hseglen]; omega),
        List.getElem?_append, if_pos (by rw [hseglen]; omega)]
      have : (seg input pos r.range.start)[i - pos]? = (input.drop pos)[i - pos]? := by
        simp only [seg, List.getElem?_take]
        rw [if_pos (by omega)]
      rw [this, List.getElem?_drop]
      congr 1
      omega
    · have hfilter : (r :: rest).filter (fun r => decide (r.range.stop ≤ i)) =
          r :: rest.filter (fun r => decide (r.range.stop ≤ i)) := by
        rw [List.filter_cons, if_pos (by simpa using hge)]
      have ih := @canonical_get input rest r.range.stop i h4
        (by omega) hil (fun r' hr' => hout r' (by simp [hr']))
      rw [hfilter]
      have hsum : diffSum (r :: rest.filter fun r => decide (r.range.stop ≤ i)) =
          ((r.text.length : Int) - ((r.range.stop : Int) - (r.range.start : Int))) +
            diffSum (rest.filter fun r => decide (r.range.stop ≤ i)) := by
        simp [diffSum]
      rw [hsum]
      set S : Int := diffSum (rest.filter fun r => decide (r.range.stop ≤ i)) with hS
      obtain ⟨ih0, ihget⟩ := ih
      have hprefix : ((seg input pos r.range.start ++ r.text).length : Int) =
          ((r.range.start - pos : Nat) : Int) + (r.text.length : Int) := by
        simp [List.length_append, hseglen]
      constructor
      · omega
      · simp only [canonicalFrom]
        have hidx : ((i : Int) - (pos : Int) +
            ((r.text.length : Int) - ((r.range.stop : Int) - (r.range.start : Int)) + S)).toNat =
            (seg input pos r.range.start ++ r.text).length +
              ((i : Int) - (r.range.stop : Int) + S).toNat := by
          rw [List.length_append, hseglen]
          omega
        rw [List.getElem?_append_right (by rw [hidx]; exact Nat.le_add_right _ _), hidx,
          Nat.add_sub_cancel_left]
        exact ihget

theorem seg_append_drop (input : Str) {pos s : Nat} (h : pos ≤ s) :
    seg input pos s ++ input.drop s = input.drop pos := by
  have hd : input.drop s = (input.drop pos).drop (s - pos) := by
    rw [List.drop_drop]
    congr 1
    omega
  rw [hd]
  exact List.take_append_drop (s - pos) (input.drop pos)

theorem canonical_id {input : Str} :
    ∀ {repls : List Replacement} {pos : Nat}, chainB input.length pos repls = true →
      (∀ r ∈ repls, r.text = seg input r.range.start r.range.stop) →
      canonicalFrom input pos repls = input.drop pos
  | [], _, _, _ => rfl
  | r :: rest, pos, hchain, hid => by
    simp only [chainB, Bool.and_eq_true, decide_eq_true_eq] at hchain
    obtain ⟨⟨⟨h1, h2⟩, h3⟩, h4⟩ := hchain
    have ih := @canonical_id input rest r.range.stop h4
      (fun r' hr' => hid r' (by simp [hr']))
    simp only [canonicalFrom, ih, hid r (by simp), List.append_assoc]
    rw [seg_append_drop input h2, seg_append_drop input h1]

theorem chainB_sorted {n : Nat} :
    ∀ {repls : List Replacement} {pos : Nat}, chainB n pos repls = true →
      repls.Sorted (fun a b => a.range.start ≤ b.range.start)
  | [], _, _ => List.sorted_nil
  | r :: rest, pos, hchain => by
    simp only [chainB, Bool.and_eq_true, decide_eq_true_eq] at hchain
    obtain ⟨⟨⟨h1, h2⟩, h3⟩, h4⟩ := hchain
    refine List.sorted_cons.mpr ⟨?_, chainB_sorted h4⟩
    intro b hb
    have := chainB_mem h4 b hb
    omega

theorem sortByStart_of_chain {n : Nat} {repls : List Replacement}
    (h : chainB n 0 repls = true) : sortByStart repls = repls :=
  List.Sorted.insertionSort_eq (chainB_sorted h)

theorem spliceLoop_no_rangeErr {input : Str} :
    ∀ {repls : List Replacement} {off : Int} {out : Str},
      (∀ r ∈ repls, r.range.start ≤ r.range.stop ∧ r.range.stop ≤ input.length) →
      returnsRangeError (spliceLoop input off out repls) = false
  | [], _, _, _ => rfl
  | r :: rest, off, out, hwf => by
    rw [spliceLoop]
    split
    · rw [extract_ok_of_wf (hwf r (by simp)).1 (hwf r (by simp)).2]
      exact spliceLoop_no_rangeErr (fun r' hr' => hwf r' (by simp [hr']))
    · rfl

/-! ## Claim C2 -/

/-- C2 (amended): for every input and every replacement list whose ranges are
pairwise non-overlapping, within bounds, AND have pairwise distinct start
offsets, `ReplaceMany` succeeds with the canonical splice; its length is
`len(input)` plus the sum of the per-replacement length differences, and
every position outside all ranges appears unchanged at the correspondingly
shifted position.  (The distinct-starts hypothesis is forced by the
counterexample: a zero-length range sharing its start with a longer range is
spliced after it and lands inside the rewritten region.) -/
theorem replaceMany_length_and_outside_bytes (input : Str) (repls : List Replacement)
    (hwf : ∀ r ∈ repls, r.range.start ≤ r.range.stop ∧ r.range.stop ≤ input.length)
    (hno : repls.Pairwise NonOverlap)
    (hds : repls.Pairwise fun a b => a.range.start ≠ b.range.start) :
    ReplaceMany input repls = .ok (canonicalFrom input 0 (sortByStart repls)) ∧
      ((canonicalFrom input 0 (sortByStart repls)).length : Int) =
        (input.length : Int) + diffSum repls ∧
      ∀ i, i < input.length → (∀ r ∈ repls, i < r.range.start ∨ r.range.stop ≤ i) →
        0 ≤ shiftAt repls i ∧
          (canonicalFrom input 0 (sortByStart repls))[(shiftAt repls i).toNat]? = input[i]? := by
  have hchain := chainB_sorted_of_hyps hwf hno hds
  refine ⟨ReplaceMany_eq_canonical hchain, ?_, ?_⟩
  · have hlen := canonical_length (Nat.zero_le input.length) hchain
    have hperm : diffSum (sortByStart repls) = diffSum repls := by
      unfold diffSum
      exact ((sortByStart_perm repls).map _).sum_eq
    rw [hperm] at hlen
    simpa using hlen
  · intro i hi hout
    have hout' : ∀ r ∈ sortByStart repls, i < r.range.start ∨ r.range.stop ≤ i :=
      fun r hr => hout r ((sortByStart_perm repls).mem_iff.mp hr)
    have hget := @canonical_get input (sortByStart repls) 0 i hchain (Nat.zero_le i) hi hout'
    have hfs : diffSum ((sortByStart repls).filter fun r => decide (r.range.stop ≤ i)) =
        diffSum (repls.filter fun r => decide (r.range.stop ≤ i)) := by
      unfold diffSum
      exact (((sortByStart_perm repls).filter _).map _).sum_eq
    rw [hfs] at hget
    unfold shiftAt
    simpa using hget

/-- C2 counterexample: on `"abcdefg"` the replacements `([2,5) ↦ "XY",
[2,2) ↦ "Z")` are pairwise non-overlapping and in bounds, yet `ReplaceMany`
returns `"aZbXYfg"`: the input byte `'b'` at position 1 — outside every
range, with shift 0 — is not at its shifted position in the output (the
zero-length insertion landed before it). -/
theorem replaceMany_displaced_byte_counterexample :
    List.Pairwise NonOverlap
        [⟨⟨2, 5⟩, "XY".toList⟩, ⟨⟨2, 2⟩, "Z".toList⟩] ∧
      (([⟨⟨2, 5⟩, "XY".toList⟩, ⟨⟨2, 2⟩, "Z".toList⟩] : List Replacement).all fun r =>
        decide (r.range.start ≤ r.range.stop) &&
          decide (r.range.stop ≤ "abcdefg".toList.length)) = true ∧
      (([⟨⟨2, 5⟩, "XY".toList⟩, ⟨⟨2, 2⟩, "Z".toList⟩] : List Replacement).all fun r =>
        decide (1 < r.range.start) || decide (r.range.stop ≤ 1)) = true ∧
      shiftAt [⟨⟨2, 5⟩, "XY".toList⟩, ⟨⟨2, 2⟩, "Z".toList⟩] 1 = 1 ∧
      ReplaceMany "abcdefg".toList [⟨⟨2, 5⟩, "XY".toList⟩, ⟨⟨2, 2⟩, "Z".toList⟩] =
        .ok "aZbXYfg".toList ∧
      "aZbXYfg".toList[1]? ≠ "abcdefg".toList[1]? := by
  decide

/-- Witness for C2's amended theorem at the single-replacement test case of
replace_test.go. -/
theorem replaceMany_length_and_outside_bytes_witness :
    ReplaceMany "This is a sentence.".toList [⟨⟨5, 7⟩, "was".toList⟩] =
        .ok (canonicalFrom "This is a sentence.".toList 0
          (sortByStart [⟨⟨5, 7⟩, "was".toList⟩])) ∧
      canonicalFrom "This is a sentence.".toList 0
          (sortByStart [⟨⟨5, 7⟩, "was".toList⟩]) = "This was a sentence.".toList :=
  ⟨(replaceMany_length_and_outside_bytes "This is a sentence.".toList
      [⟨⟨5, 7⟩, "was".toList⟩] (by decide) (by decide) (by decide)).1, by decide⟩

/-! ## Claim C6 -/

/-- C6 (amended): `ReplaceMany` performs no overlap validation.  For every
replacement list whose ranges are individually well-formed and in bounds —
overlapping or not — it never fails with a `RangeError`; overlapping ranges
are spliced with the running offset, producing a garbled result (or a Go
slice-bounds panic) instead of an error. -/
theorem replaceMany_no_overlap_rejection (input : Str) (repls : List Replacement)
    (hwf : ∀ r ∈ repls, r.range.start ≤ r.range.stop ∧ r.range.stop ≤ input.length) :
    returnsRangeError (ReplaceMany input repls) = false := by
  unfold ReplaceMany
  exact spliceLoop_no_rangeErr fun r hr => hwf r ((sortByStart_perm repls).mem_iff.mp hr)

/-- C6 counterexample: the ranges `[0,2)` and `[1,3)` overlap, yet
`ReplaceMany` on `"abcd"` returns `"Yd"` successfully instead of failing
with a `RangeError`. -/
theorem replaceMany_overlap_accepted_counterexample :
    ¬ NonOverlap ⟨⟨0, 2⟩, "X".toList⟩ ⟨⟨1, 3⟩, "Y".toList⟩ ∧
      ReplaceMany "abcd".toList [⟨⟨0, 2⟩, "X".toList⟩, ⟨⟨1, 3⟩, "Y".toList⟩] =
        .ok "Yd".toList := by
  decide

/-- Witness for C6's amended theorem at the overlapping example. -/
theorem replaceMany_no_overlap_rejection_witness :
    returnsRangeError
        (ReplaceMany "abcd".toList [⟨⟨0, 2⟩, "X".toList⟩, ⟨⟨1, 3⟩, "Y".toList⟩]) = false :=
  replaceMany_no_overlap_rejection "abcd".toList
    [⟨⟨0, 2⟩, "X".toList⟩, ⟨⟨1, 3⟩, "Y".toList⟩] (by decide)

/-! ## Claim C7 -/

/-- C7 (amended): the exact case analysis of `Extract`.  An empty range
(`r.end == r.start`) returns `""` without any bounds check; then
`NegativeLength` when `r.end < r.start`; then `StartPastEnd` already when
`r.start ≥ len(input)` (not only `>`); then `EndPastEnd` when
`r.end > len(input)`; otherwise the slice `input[r.start:r.end]`. -/
theorem extract_case_analysis (input : Str) (r : Range) :
    (r.stop = r.start → Extract input r = .ok []) ∧
      (r.stop < r.start → Extract input r = .error (.negativeLength r)) ∧
      (r.start < r.stop → input.length ≤ r.start →
        Extract input r = .error (.startPastEnd r)) ∧
      (r.start < r.stop → r.start < input.length → input.length < r.stop →
        Extract input r = .error (.endPastEnd r)) ∧
      (r.start ≤ r.stop → r.stop ≤ input.length →
        Extract input r = .ok (seg input r.start r.stop)) := by
  refine ⟨?_, ?_, ?_, ?_, ?_⟩
  · intro h
    unfold Extract
    rw [if_pos h]
  · intro h
    unfold Extract
    rw [if_neg (by omega), if_pos h]
  · intro h1 h2
    unfold Extract
    rw [if_neg (by omega), if_neg (by omega), if_pos h2]
  · intro h1 h2 h3
    unfold Extract
    rw [if_neg (by omega), if_neg (by omega), if_neg (by omega), if_pos h3]
  · intro h1 h2
    exact extract_ok_of_wf h1 h2

/-- C7 counterexample: for the empty range `[5,5)` on `"ab"` the claim
demands a `StartPastEnd` failure (`5 > 2`), but `Extract` returns `""`
without error. -/
theorem extract_empty_range_unchecked_counterexample :
    Extract "ab".toList ⟨5, 5⟩ = .ok [] ∧
      Extract "ab".toList ⟨5, 5⟩ ≠ .error (.startPastEnd ⟨5, 5⟩) := by
  decide

/-- Witness for C7's amended theorem: the in-bounds slice case. -/
theorem extract_case_analysis_witness :
    Extract "ab".toList ⟨0, 1⟩ = .ok (seg "ab".toList 0 1) :=
  (extract_case_analysis "ab".toList ⟨0, 1⟩).2.2.2.2 (by decide) (by decide)

/-! ## Claim C1 -/

/-- C1 (code bug): the preserve round-trip fails when the text ends with a
match.  `{.+?}` on `"{x}"` matches `[[0,3]]`; the split yields no parts and
one item at index 0, and `Join` — which inserts at most one item, and only
before an existing part — returns `""` instead of reconstructing `"{x}"`.
This contradicts `preserve.Regexp`'s own doc comment ("You can then use
preserve.Join() to reconstruct the orignal text") and the spec invariant. -/
theorem preserve_join_drops_trailing_item :
    Join (Regexp [(0, 3)] "\x7bx\x7d".toList).1 (Regexp [(0, 3)] "\x7bx\x7d".toList).2 = [] ∧
      Regexp [(0, 3)] "\x7bx\x7d".toList = ([], [⟨"\x7bx\x7d".toList, 0⟩]) ∧
      "\x7bx\x7d".toList ≠ [] := by
  decide

/-! ## Claim C5 -/

/-- C5 (code bug): the `TrimRightFunc` closure in `translateRange` collects
trailing whitespace right-to-left, and the rebuild writes it in that
(reversed) order.  With an identity backend, the part `"Hi \n"` (trailing
space-then-newline) comes back as `"Hi\n "` — the trailing whitespace is
reinstated reversed, not verbatim. -/
theorem translate_reverses_trailing_whitespace :
    translateRange (fun s => .ok s) none "Hi \n".toList ⟨0, 4⟩ =
        .ok ("Hi\n ".toList, ["Hi".toList]) ∧
      "Hi\n ".toList ≠ "Hi \n".toList := by
  decide

/-! ## Claim C4 -/

/-- C4: with the `Parallel(n)` option for any `n ≤ 0`, `translateRanges`
spawns `max(n, 0) = 0` workers, so no range is consumed, the backend is never
invoked, and `ReplaceMany` with an empty replacement list returns the input
verbatim. -/
theorem translate_parallel_nonpositive (svc : Service) (preserve : PreserveCfg)
    (parallel : Int) (ranges : List Range) (input : Str) (h : parallel ≤ 0) :
    TranslatorTranslate svc preserve parallel ranges input = .ok (input, []) := by
  have hw : (if parallel < 0 then (0 : Nat) else parallel.toNat) = 0 := by
    split
    · rfl
    · omega
  simp only [TranslatorTranslate, hw]
  rfl

/-- Witness for C4 at `Parallel(-1)` with a backend that would fail if
called. -/
theorem translate_parallel_nonpositive_witness :
    TranslatorTranslate (fun _ => .error "no call expected".toList) none (-1)
        [⟨0, 2⟩] "ab".toList = .ok ("ab".toList, []) :=
  translate_parallel_nonpositive (fun _ => .error "no call expected".toList) none (-1)
    [⟨0, 2⟩] "ab".toList (by decide)

/-! ## Claim C9 -/

/-- C9: on `<p title="A title tag.">Hello.</p>` with the selector `p.title`
(the `x/net/html` tokenizer yields the start tag of raw length 24, the text
token `Hello.`, and the end tag), the ranger emits exactly two ranges, and
they cover precisely the bytes of `A title tag.` inside the start tag and of
the text node `Hello.`. -/
theorem html_ranges_attribute_and_text :
    htmlRanges [withAttribute "title".toList ["p".toList]]
        [⟨.startTag, "<p title=\"A title tag.\">".toList, "p".toList, 1,
            "<p title=\"A title tag.\">".toList⟩,
          ⟨.text, "Hello.".toList, "Hello.".toList, 0, "Hello.".toList⟩,
          ⟨.endTag, "</p>".toList, "p".toList, 0, "</p>".toList⟩] =
        [⟨10, 22⟩, ⟨24, 30⟩] ∧
      seg "<p title=\"A title tag.\">Hello.</p>".toList 10 22 = "A title tag.".toList ∧
      seg "<p title=\"A title tag.\">Hello.</p>".toList 24 30 = "Hello.".toList := by
  decide

/-! ## Lemmas for claim C8 -/

theorem goIsPunct_not_space {c : Char} (h : goIsPunct c = true) : goIsSpace c = false := by
  simp only [goIsPunct, decide_eq_true_eq] at h
  simp only [goIsSpace, List.mem_cons, List.not_mem_nil, or_false, decide_eq_false_iff_not]
  omega

theorem punct_no_leading_space {s : Str} (h : s.all goIsPunct = true) :
    s.takeWhile goIsSpace = [] ∧ s.dropWhile goIsSpace = s := by
  cases s with
  | nil => exact ⟨rfl, rfl⟩
  | cons c t =>
    have hc : goIsPunct c = true := by
      simp only [List.all_cons, Bool.and_eq_true] at h
      exact h.1
    rw [List.takeWhile_cons, List.dropWhile_cons, goIsPunct_not_space hc]
    exact ⟨rfl, rfl⟩

theorem punct_no_trim {s : Str} (h : s.all goIsPunct = true) :
    leftSpaceOf s = [] ∧ rightSpaceOf s = [] ∧ coreOf s = s := by
  have hrev : s.reverse.all goIsPunct = true := by
    rw [List.all_reverse]
    exact h
  have h1 := punct_no_leading_space h
  have h2 := punct_no_leading_space hrev
  refine ⟨h1.1, ?_, ?_⟩
  · unfold rightSpaceOf
    rw [h1.2, h2.1]
  · unfold coreOf
    rw [h1.2, h2.2, List.reverse_reverse]

theorem processPart_punct (svc : Service) {part : Str}
    (h : isPunctuation (coreOf part) = true) : processPart svc part = .ok (part, []) := by
  unfold processPart
  rw [if_pos h]

theorem translateRange_punct (svc : Service) {input : Str} {r : Range}
    (h1 : r.start ≤ r.stop) (h2 : r.stop ≤ input.length)
    (hp : isPunctuation (seg input r.start r.stop) = true) :
    translateRange svc none input r = .ok (seg input r.start r.stop, []) := by
  have hall : (seg input r.start r.stop).all goIsPunct = true := by
    simp only [isPunctuation, Bool.and_eq_true] at hp
    exact hp.2
  have hcore := (punct_no_trim hall).2.2
  unfold translateRange
  rw [extract_ok_of_wf h1 h2]
  dsimp only
  rw [show processParts svc [seg input r.start r.stop] =
      .ok ([seg input r.start r.stop], []) from by
    unfold processParts
    rw [processPart_punct svc (by rw [hcore]; exact hp)]
    rfl]
  dsimp only
  simp [Join]

theorem translateRanges_punct (svc : Service) (parallel : Int) {input : Str} :
    ∀ {ranges : List Range},
      (∀ r ∈ ranges, r.start ≤ r.stop ∧ r.stop ≤ input.length) →
      (∀ r ∈ ranges, isPunctuation (seg input r.start r.stop) = true) →
      translateRanges svc none parallel input ranges =
        .ok (ranges.map fun r => (r, seg input r.start r.stop), [])
  | [], _, _ => rfl
  | r :: rest, hwf, hp => by
    rw [translateRanges,
      translateRange_punct svc (hwf r (by simp)).1 (hwf r (by simp)).2 (hp r (by simp)),
      translateRanges_punct svc parallel (fun r' hr' => hwf r' (by simp [hr']))
        (fun r' hr' => hp r' (by simp [hr']))]
    rfl

theorem rangeChainB_mem {n : Nat} :
    ∀ {ranges : List Range} {pos : Nat}, rangeChainB n pos ranges = true →
      ∀ r ∈ ranges, pos ≤ r.start ∧ r.start ≤ r.stop ∧ r.stop ≤ n
  | [], _, _, r, hr => by cases hr
  | r₀ :: rest, pos, h, r, hr => by
    simp only [rangeChainB, Bool.and_eq_true, decide_eq_true_eq] at h
    obtain ⟨⟨⟨h1, h2⟩, h3⟩, h4⟩ := h
    rcases List.mem_cons.mp hr with rfl | hmem
    · exact ⟨h1, h2, h3⟩
    · have := rangeChainB_mem h4 r hmem
      exact ⟨by omega, this.2.1, this.2.2⟩

theorem chainB_map_seg {input : Str} :
    ∀ {ranges : List Range} {pos : Nat},
      chainB input.length pos (ranges.map fun r => ⟨r, seg input r.start r.stop⟩) =
        rangeChainB input.length pos ranges
  | [], _ => rfl
  | r :: rest, pos => by
    simp only [List.map_cons, chainB, rangeChainB, @chainB_map_seg input rest]

theorem replaceMany_identity {input : Str} {repls : List Replacement}
    (hchain : chainB input.length 0 repls = true)
    (hid : ∀ r ∈ repls, r.text = seg input r.range.start r.range.stop) :
    ReplaceMany input repls = .ok input := by
  unfold ReplaceMany
  rw [sortByStart_of_chain hchain]
  have hrun := spliceLoop_chain input repls [] 0 (Nat.zero_le _) hchain
  simp only [List.length_nil, Nat.cast_zero, List.drop_zero, List.nil_append, sub_self] at hrun
  rw [hrun, canonical_id hchain hid, List.drop_zero]

/-! ## Claim C8 -/

/-- C8: a part whose whitespace-trimmed core is pure ASCII punctuation is
skipped (`continue`): the backend is not called and the part stays untouched.
Consequently, for ranges whose extracted fragments consist entirely of ASCII
punctuation, `Translate` makes zero backend calls and returns the input
unchanged. -/
theorem punctuation_parts_untranslated :
    (∀ (svc : Service) (part : Str), isPunctuation (coreOf part) = true →
      processPart svc part = .ok (part, [])) ∧
    ∀ (svc : Service) (parallel : Int) (ranges : List Range) (input : Str),
      rangeChainB input.length 0 ranges = true →
      (∀ r ∈ ranges, isPunctuation (seg input r.start r.stop) = true) →
      TranslatorTranslate svc none parallel ranges input = .ok (input, []) := by
  refine ⟨fun svc part h => processPart_punct svc h, ?_⟩
  intro svc parallel ranges input hchain hp
  by_cases hw : (if parallel < 0 then (0 : Nat) else parallel.toNat) = 0
  · simp only [TranslatorTranslate, hw]
    rfl
  · have hwf : ∀ r ∈ ranges, r.start ≤ r.stop ∧ r.stop ≤ input.length :=
      fun r hr => (rangeChainB_mem hchain r hr).2
    simp only [TranslatorTranslate, if_neg hw, translateRanges_punct svc parallel hwf hp]
    have hid : ∀ rr ∈ (ranges.map fun r => (r, seg input r.start r.stop)).map
        (fun tr => (⟨tr.1, tr.2⟩ : Replacement)), rr.text = seg input rr.range.start rr.range.stop := by
      intro rr hrr
      simp only [List.map_map, List.mem_map, Function.comp] at hrr
      obtain ⟨r, _, rfl⟩ := hrr
      rfl
    have hchain' : chainB input.length 0
        ((ranges.map fun r => (r, seg input r.start r.stop)).map
          fun tr => (⟨tr.1, tr.2⟩ : Replacement)) = true := by
      rw [List.map_map]
      have : ((fun tr : Range × Str => (⟨tr.1, tr.2⟩ : Replacement)) ∘
          fun r => (r, seg input r.start r.stop)) =
          fun r => (⟨r, seg input r.start r.stop⟩ : Replacement) := rfl
      rw [this, chainB_map_seg]
      exact hchain
    rw [replaceMany_identity hchain' hid]

/-- Witness for C8 at dragoman_test.go's punctuation scenario. -/
theorem punctuation_parts_untranslated_witness :
    TranslatorTranslate (fun _ => .error "no call expected".toList) none 1 [⟨0, 12⟩]
        "!-/:-@[-`\x7b-~".toList = .ok ("!-/:-@[-`\x7b-~".toList, []) :=
  punctuation_parts_untranslated.2 (fun _ => .error "no call expected".toList) 1
    [⟨0, 12⟩] "!-/:-@[-`\x7b-~".toList (by decide) (by decide)

/-! ## Lemmas about the JSON lexer -/

theorem drop_cons_facts {input : Str} {p : Nat} {c : Char} {rest : List Char}
    (h : input.drop p = c :: rest) :
    input.drop (p + 1) = rest ∧ input[p]? = some c ∧ p < input.length := by
  have hd : input.drop (p + 1) = rest := by
    have : input.drop (p + 1) = (input.drop p).drop 1 := by
      rw [List.drop_drop]
    rw [this, h, List.drop_one, List.tail_cons]
  have hg : input[p]? = some c := by
    rw [← List.head?_drop, h, List.head?_cons]
  have hl : p < input.length := by
    by_contra hge
    rw [List.drop_eq_nil_of_le (by omega)] at h
    cases h
  exact ⟨hd, hg, hl⟩

theorem fns_eof {input : Str} {i : Nat} (h : input.length ≤ i) :
    firstNonSpace input i = i := by
  unfold firstNonSpace
  rw [List.drop_eq_nil_of_le h]
  rfl

theorem fns_stop {input : Str} {i : Nat} {c : Char} (h : input[i]? = some c)
    (hc : goIsSpace c = false) : firstNonSpace input i = i := by
  unfold firstNonSpace
  cases hd : input.drop i with
  | nil => simp
  | cons a t =>
    have hac : a = c := by
      have h2 := (drop_cons_facts hd).2.1
      rw [h] at h2
      exact (Option.some.inj h2).symm
    subst hac
    simp [List.takeWhile_cons, hc]

theorem fns_step {input : Str} {i : Nat} {c : Char} (h : input[i]? = some c)
    (hc : goIsSpace c = true) : firstNonSpace input i = firstNonSpace input (i + 1) := by
  unfold firstNonSpace
  cases hd : input.drop i with
  | nil =>
    rw [← List.head?_drop, hd] at h
    simp at h
  | cons a t =>
    have hac : a = c := by
      have h2 := (drop_cons_facts hd).2.1
      rw [h] at h2
      exact (Option.some.inj h2).symm
    subst hac
    have ht : input.drop (i + 1) = t := (drop_cons_facts hd).1
    rw [ht, List.takeWhile_cons, hc]
    simp only [if_true, List.length_cons]
    omega

theorem lexRun_eof_last (rest : List Char) :
    ∀ (p : Nat) (st : LexState),
      ∃ es, lexRun rest p st = es ++ [.eofTok (p + rest.length)] ∧
        ∀ e ∈ es, ∀ q, e ≠ .eofTok q := by
  induction rest with
  | nil =>
    intro p st
    cases st with
    | seek => exact ⟨[], by simp [lexRun]⟩
    | body q0 => exact ⟨[], by simp [lexRun]⟩
    | escape q0 => exact ⟨[], by simp [lexRun]⟩
    | close q0 q1 => exact ⟨[.strTok q0 q1], by simp [lexRun]⟩
  | cons c rest ih =>
    intro p st
    have hlen : p + (c :: rest).length = (p + 1) + rest.length := by
      simp only [List.length_cons]
      omega
    have hcons : ∀ (e : LexEvent) (tail : List LexEvent) (q : Nat),
        (∃ es, tail = es ++ [.eofTok q] ∧ ∀ x ∈ es, ∀ m, x ≠ .eofTok m) →
        (∀ m, e ≠ .eofTok m) →
        ∃ es, e :: tail = es ++ [LexEvent.eofTok q] ∧ ∀ x ∈ es, ∀ m, x ≠ .eofTok m := by
      intro e tail q ⟨es, he, hne⟩ hee
      refine ⟨e :: es, by rw [he]; rfl, ?_⟩
      intro x hx m
      rcases List.mem_cons.mp hx with rfl | hm
      · exact hee m
      · exact hne x hm m
    cases st with
    | seek =>
      rw [lexRun, hlen]
      by_cases hc : c = '\"'
      · rw [if_pos hc]
        exact ih (p + 1) (.body p)
      · rw [if_neg hc]
        exact ih (p + 1) .seek
    | body q0 =>
      rw [lexRun, hlen]
      by_cases hq : c = '\"'
      · rw [if_pos hq]
        exact ih (p + 1) (.close q0 p)
      · rw [if_neg hq]
        by_cases hb : c = '\\'
        · rw [if_pos hb]
          exact ih (p + 1) (.escape q0)
        · rw [if_neg hb]
          exact ih (p + 1) (.body q0)
    | escape q0 =>
      rw [lexRun, hlen]
      exact ih (p + 1) (.body q0)
    | close q0 q1 =>
      rw [lexRun, hlen]
      by_cases hs : goIsSpace c = true
      · rw [if_pos hs]
        exact ih (p + 1) (.close q0 q1)
      · rw [if_neg hs]
        by_cases hcolon : c = ':'
        · rw [if_pos hcolon]
          exact hcons _ _ _ (ih (p + 1) .seek) (by intro m; simp)
        · rw [if_neg hcolon]
          by_cases hq : c = '\"'
          · rw [if_pos hq]
            exact hcons _ _ _ (ih (p + 1) (.body p)) (by intro m; simp)
          · rw [if_neg hq]
            exact hcons _ _ _ (ih (p + 1) .seek) (by intro m; simp)

theorem lexRun_master (input : Str) (rest : List Char) :
    ∀ (p : Nat) (st : LexState), rest = input.drop p → p ≤ input.length →
      StateOK input p st →
      (∀ e ∈ lexRun rest p st,
        EventOK input e ∧ stLo st p ≤ evLo e ∧ evLo e ≤ evHi e) ∧
      List.Pairwise (fun a b => evHi a < evLo b) (lexRun rest p st) := by
  induction rest with
  | nil =>
    intro p st hrest hp hst
    have hpl : p = input.length := by
      have hlen := congrArg List.length hrest
      simp only [List.length_nil, List.length_drop] at hlen
      omega
    cases st with
    | seek =>
      refine ⟨?_, by simp [lexRun]⟩
      intro e he
      simp only [lexRun, List.mem_singleton] at he
      subst he
      simp only [EventOK, evLo, evHi, stLo]
      exact ⟨hpl, le_refl _, le_refl _⟩
    | body q0 =>
      simp only [StateOK] at hst
      refine ⟨?_, by simp [lexRun]⟩
      intro e he
      simp only [lexRun, List.mem_singleton] at he
      subst he
      simp only [EventOK, evLo, evHi, stLo]
      exact ⟨hpl, by omega, le_refl _⟩
    | escape q0 =>
      simp only [StateOK] at hst
      refine ⟨?_, by simp [lexRun]⟩
      intro e he
      simp only [lexRun, List.mem_singleton] at he
      subst he
      simp only [EventOK, evLo, evHi, stLo]
      exact ⟨hpl, by omega, le_refl _⟩
    | close q0 q1 =>
      simp only [StateOK] at hst
      obtain ⟨hq01, hq1p, hg0, hg1, hfns⟩ := hst
      have hfns2 : firstNonSpace input (q1 + 1) = input.length := by
        rw [hfns, hpl]
        exact fns_eof (le_refl _)
      refine ⟨?_, ?_⟩
      · intro e he
        simp only [lexRun, List.mem_cons, List.mem_singleton, List.not_mem_nil,
          or_false] at he
        rcases he with rfl | rfl
        · simp only [EventOK, evLo, evHi, stLo]
          refine ⟨⟨hq01, by omega, hg0, hg1, ?_⟩, le_refl _, by omega⟩
          rw [hfns2, List.getElem?_eq_none (le_refl _)]
          simp
        · simp only [EventOK, evLo, evHi, stLo]
          exact ⟨hpl, by omega, le_refl _⟩
      · simp only [lexRun]
        refine List.pairwise_cons.mpr ⟨?_, by simp⟩
        intro b hb
        simp only [List.mem_singleton] at hb
        subst hb
        simp only [evHi, evLo]
        omega
  | cons c rest ih =>
    intro p st hrest hp hst
    obtain ⟨hd1, hd2, hd3⟩ := drop_cons_facts hrest.symm
    have hnext : rest = input.drop (p + 1) := hd1.symm
    have hple : p + 1 ≤ input.length := by omega
    cases st with
    | seek =>
      rw [lexRun]
      by_cases hc : c = '\"'
      · rw [if_pos hc]
        have hok : StateOK input (p + 1) (.body p) := by
          simp only [StateOK]
          exact ⟨by omega, by rw [hd2, hc]⟩
        obtain ⟨ihe, ihp⟩ := ih (p + 1) (.body p) hnext hple hok
        refine ⟨?_, ihp⟩
        intro e he
        exact ⟨(ihe e he).1, (ihe e he).2.1, (ihe e he).2.2⟩
      · rw [if_neg hc]
        obtain ⟨ihe, ihp⟩ := ih (p + 1) .seek hnext hple trivial
        refine ⟨?_, ihp⟩
        intro e he
        exact ⟨(ihe e he).1, by
          have := (ihe e he).2.1
          simp only [stLo] at this ⊢
          omega, (ihe e he).2.2⟩
    | body q0 =>
      simp only [StateOK] at hst
      obtain ⟨hq0p, hg0⟩ := hst
      rw [lexRun]
      by_cases hq : c = '\"'
      · rw [if_pos hq]
        have hok : StateOK input (p + 1) (.close q0 p) := by
          simp only [StateOK]
          exact ⟨hq0p, by omega, hg0, by rw [hd2, hq], trivial⟩
        obtain ⟨ihe, ihp⟩ := ih (p + 1) (.close q0 p) hnext hple hok
        exact ⟨fun e he => (ihe e he), ihp⟩
      · rw [if_neg hq]
        by_cases hb : c = '\\'
        · rw [if_pos hb]
          have hok : StateOK input (p + 1) (.escape q0) := by
            simp only [StateOK]
            exact ⟨by omega, hg0⟩
          obtain ⟨ihe, ihp⟩ := ih (p + 1) (.escape q0) hnext hple hok
          exact ⟨fun e he => (ihe e he), ihp⟩
        · rw [if_neg hb]
          have hok : StateOK input (p + 1) (.body q0) := by
            simp only [StateOK]
            exact ⟨by omega, hg0⟩
          obtain ⟨ihe, ihp⟩ := ih (p + 1) (.body q0) hnext hple hok
          exact ⟨fun e he => (ihe e he), ihp⟩
    | escape q0 =>
      simp only [StateOK] at hst
      obtain ⟨hq0p, hg0⟩ := hst
      rw [lexRun]
      have hok : StateOK input (p + 1) (.body q0) := by
        simp only [StateOK]
        exact ⟨by omega, hg0⟩
      obtain ⟨ihe, ihp⟩ := ih (p + 1) (.body q0) hnext hple hok
      exact ⟨fun e he => (ihe e he), ihp⟩
    | close q0 q1 =>
      simp only [StateOK] at hst
      obtain ⟨hq01, hq1p, hg0, hg1, hfns⟩ := hst
      rw [lexRun]
      by_cases hs : goIsSpace c = true
      · rw [if_pos hs]
        have hok : StateOK input (p + 1) (.close q0 q1) := by
          simp only [StateOK]
          exact ⟨hq01, by omega, hg0, hg1, by rw [hfns]; exact fns_step hd2 hs⟩
        obtain ⟨ihe, ihp⟩ := ih (p + 1) (.close q0 q1) hnext hple hok
        exact ⟨fun e he => (ihe e he), ihp⟩
      · rw [if_neg hs]
        have hnspace : goIsSpace c = false := by
          revert hs
          cases goIsSpace c <;> simp
        have hfnsp : firstNonSpace input (q1 + 1) = p := by
          rw [hfns]
          exact fns_stop hd2 hnspace
        by_cases hcolon : c = ':'
        · rw [if_pos hcolon]
          obtain ⟨ihe, ihp⟩ := ih (p + 1) .seek hnext hple trivial
          have hkey : EventOK input (.keySkip q0 q1 p) := by
            simp only [EventOK]
            exact ⟨hq01, hq1p, hd3, hg0, hg1, by rw [hd2, hcolon], hfnsp⟩
          refine ⟨?_, ?_⟩
          · intro e he
            rcases List.mem_cons.mp he with rfl | hm
            · simp only [evLo, evHi, stLo]
              exact ⟨hkey, le_refl _, by omega⟩
            · refine ⟨(ihe e hm).1, ?_, (ihe e hm).2.2⟩
              have := (ihe e hm).2.1
              simp only [stLo] at this ⊢
              omega
          · refine List.pairwise_cons.mpr ⟨?_, ihp⟩
            intro b hb
            have := (ihe b hb).2.1
            simp only [stLo] at this
            simp only [evHi]
            omega
        · rw [if_neg hcolon]
          have hstr : EventOK input (.strTok q0 q1) := by
            simp only [EventOK]
            refine ⟨hq01, by omega, hg0, hg1, ?_⟩
            rw [hfnsp, hd2]
            simp only [ne_eq, Option.some.injEq]
            exact hcolon
          by_cases hq : c = '\"'
          · rw [if_pos hq]
            have hok : StateOK input (p + 1) (.body p) := by
              simp only [StateOK]
              exact ⟨by omega, by rw [hd2, hq]⟩
            obtain ⟨ihe, ihp⟩ := ih (p + 1) (.body p) hnext hple hok
            refine ⟨?_, ?_⟩
            · intro e he
              rcases List.mem_cons.mp he with rfl | hm
              · simp only [evLo, evHi, stLo]
                exact ⟨hstr, le_refl _, by omega⟩
              · refine ⟨(ihe e hm).1, ?_, (ihe e hm).2.2⟩
                have := (ihe e hm).2.1
                simp only [stLo] at this ⊢
                omega
            · refine List.pairwise_cons.mpr ⟨?_, ihp⟩
              intro b hb
              have := (ihe b hb).2.1
              simp only [stLo] at this
              simp only [evHi]
              omega
          · rw [if_neg hq]
            obtain ⟨ihe, ihp⟩ := ih (p + 1) .seek hnext hple trivial
            refine ⟨?_, ?_⟩
            · intro e he
              rcases List.mem_cons.mp he with rfl | hm
              · simp only [evLo, evHi, stLo]
                exact ⟨hstr, le_refl _, by omega⟩
              · refine ⟨(ihe e hm).1, ?_, (ihe e hm).2.2⟩
                have := (ihe e hm).2.1
                simp only [stLo] at this ⊢
                omega
            · refine List.pairwise_cons.mpr ⟨?_, ihp⟩
              intro b hb
              have := (ihe b hb).2.1
              simp only [stLo] at this
              simp only [evHi]
              omega

theorem lexRun_body_unterminated :
    ∀ (rest : List Char) (p q0 : Nat), bodyUnterminated rest = true →
      lexRun rest p (.body q0) = [.eofTok (p + rest.length)]
  | [], _, _, _ => by simp [lexRun]
  | [c], p, q0, h => by
    rw [bodyUnterminated] at h
    by_cases hq : c = '\"'
    · rw [if_pos hq] at h
      cases h
    · rw [lexRun, if_neg hq]
      by_cases hb : c = '\\'
      · rw [if_pos hb]
        simp [lexRun]
      · rw [if_neg hb]
        simp [lexRun]
  | c :: d :: rest, p, q0, h => by
    rw [bodyUnterminated] at h
    by_cases hq : c = '\"'
    · rw [if_pos hq] at h
      cases h
    · rw [if_neg hq] at h
      rw [lexRun, if_neg hq]
      by_cases hb : c = '\\'
      · rw [if_pos hb] at h
        rw [if_pos hb, lexRun, lexRun_body_unterminated rest (p + 2) q0 h]
        simp only [List.length_cons, List.cons.injEq, LexEvent.eofTok.injEq, and_true]
        omega
      · rw [if_neg hb] at h
        rw [if_neg hb, lexRun_body_unterminated (d :: rest) (p + 1) q0 h]
        simp only [List.length_cons, List.cons.injEq, LexEvent.eofTok.injEq, and_true]
        omega

theorem eventTokens_append (input : Str) :
    ∀ (a b : List LexEvent),
      eventTokens input (a ++ b) = eventTokens input a ++ eventTokens input b
  | [], _ => rfl
  | .strTok q0 q1 :: a, b => by
    simp only [List.cons_append, eventTokens, List.append_eq, eventTokens_append input a b]
  | .keySkip q0 q1 colon :: a, b => by
    simp only [List.cons_append, eventTokens, List.append_eq, eventTokens_append input a b]
  | .eofTok p :: a, b => by
    simp only [List.cons_append, eventTokens, List.append_eq, eventTokens_append input a b]

theorem eventTokens_mem (input : Str) (es : List LexEvent) :
    ∀ {t : Token}, t ∈ eventTokens input es →
      (∃ q0 q1, .strTok q0 q1 ∈ es ∧ t = ⟨q0, .string, seg input q0 (q1 + 1)⟩) ∨
        ∃ p, .eofTok p ∈ es ∧ t = ⟨p, .eof, []⟩ := by
  induction es with
  | nil =>
    intro t ht
    cases ht
  | cons e es ih =>
    intro t ht
    cases e with
    | strTok q0 q1 =>
      rcases List.mem_cons.mp ht with rfl | hm
      · exact .inl ⟨q0, q1, by simp, rfl⟩
      · rcases ih hm with ⟨a, b, hab, rfl⟩ | ⟨a, ha, rfl⟩
        · exact .inl ⟨a, b, by simp [hab], rfl⟩
        · exact .inr ⟨a, by simp [ha], rfl⟩
    | keySkip q0 q1 colon =>
      have ht' : t ∈ eventTokens input es := ht
      rcases ih ht' with ⟨a, b, hab, rfl⟩ | ⟨a, ha, rfl⟩
      · exact .inl ⟨a, b, by simp [hab], rfl⟩
      · exact .inr ⟨a, by simp [ha], rfl⟩
    | eofTok p =>
      rcases List.mem_cons.mp ht with rfl | hm
      · exact .inr ⟨p, by simp, rfl⟩
      · rcases ih hm with ⟨a, b, hab, rfl⟩ | ⟨a, ha, rfl⟩
        · exact .inl ⟨a, b, by simp [hab], rfl⟩
        · exact .inr ⟨a, by simp [ha], rfl⟩

theorem eventTokens_no_eof (input : Str) (es : List LexEvent) :
    (∀ e ∈ es, ∀ q, e ≠ .eofTok q) → ∀ t ∈ eventTokens input es, t.type = .string := by
  induction es with
  | nil =>
    intro _ t ht
    cases ht
  | cons e es ih =>
    intro hne t ht
    cases e with
    | strTok q0 q1 =>
      rcases List.mem_cons.mp ht with rfl | hm
      · rfl
      · exact ih (fun e he q => hne e (by simp [he]) q) t hm
    | keySkip q0 q1 colon =>
      exact ih (fun e he q => hne e (by simp [he]) q) t ht
    | eofTok p =>
      exact absurd rfl (hne (.eofTok p) (by simp) p)

theorem rangerRanges_strings (n : Nat) (v : Str) :
    ∀ (ts : List Token), (∀ t ∈ ts, t.type = .string) →
      rangerRanges (ts ++ [⟨n, .eof, v⟩]) =
        (ts.map fun t => ⟨t.pos + 1, t.pos + t.value.length - 1⟩, false) := by
  intro ts
  induction ts with
  | nil =>
    intro _
    rfl
  | cons t ts ih =>
    intro hs
    have htt : t.type = .string := hs t (by simp)
    have ih' := ih fun t' ht' => hs t' (by simp [ht'])
    simp only [List.cons_append, rangerRanges, htt, List.append_eq] at *
    rw [ih']
    simp

theorem rangesOfEvents_mem {es : List LexEvent} {r : Range} (h : r ∈ rangesOfEvents es) :
    ∃ q0 q1, .strTok q0 q1 ∈ es ∧ r = ⟨q0 + 1, q1⟩ := by
  obtain ⟨e, he, hfe⟩ := List.mem_filterMap.mp h
  cases e with
  | strTok q0 q1 => exact ⟨q0, q1, he, (Option.some.inj hfe).symm⟩
  | keySkip q0 q1 colon => cases hfe
  | eofTok p => cases hfe

theorem keysOfEvents_mem {es : List LexEvent} {kr : Nat × Nat} (h : kr ∈ keysOfEvents es) :
    ∃ q0 q1 colon, .keySkip q0 q1 colon ∈ es ∧ kr = (q0, colon) := by
  obtain ⟨e, he, hfe⟩ := List.mem_filterMap.mp h
  cases e with
  | strTok q0 q1 => cases hfe
  | keySkip q0 q1 colon => exact ⟨q0, q1, colon, he, (Option.some.inj hfe).symm⟩
  | eofTok p => cases hfe

theorem events_disjoint (es : List LexEvent)
    (hp : List.Pairwise (fun a b => evHi a < evLo b) es) :
    ∀ r ∈ rangesOfEvents es, ∀ kr ∈ keysOfEvents es, r.stop ≤ kr.1 ∨ kr.2 < r.start := by
  induction es with
  | nil =>
    intro r hr
    cases hr
  | cons e es ih =>
    obtain ⟨hhead, htail⟩ := List.pairwise_cons.mp hp
    intro r hr kr hkr
    cases e with
    | strTok q0 q1 =>
      have hkr' : kr ∈ keysOfEvents es := hkr
      rcases List.mem_cons.mp (show r ∈ (⟨q0 + 1, q1⟩ : Range) :: rangesOfEvents es from hr)
        with rfl | hr'
      · obtain ⟨k0, k1, c, hkev, rfl⟩ := keysOfEvents_mem hkr'
        have := hhead _ hkev
        simp only [evHi, evLo] at this
        left
        simpa using Nat.le_of_lt this
      · exact ih htail r hr' kr hkr'
    | keySkip k0 k1 c =>
      have hr' : r ∈ rangesOfEvents es := hr
      rcases List.mem_cons.mp (show kr ∈ (k0, c) :: keysOfEvents es from hkr) with rfl | hkr'
      · obtain ⟨q0, q1, hsev, rfl⟩ := rangesOfEvents_mem hr'
        have := hhead _ hsev
        simp only [evHi, evLo] at this
        right
        simpa using Nat.lt_succ_of_lt this
      · exact ih htail r hr' kr hkr'
    | eofTok p =>
      exact ih htail r hr kr hkr

theorem eventTokens_map_ranges (input : Str) (es : List LexEvent) :
    (∀ e ∈ es, EventOK input e) → (∀ e ∈ es, ∀ q, e ≠ .eofTok q) →
      (eventTokens input es).map
          (fun t => (⟨t.pos + 1, t.pos + t.value.length - 1⟩ : Range)) =
        rangesOfEvents es := by
  induction es with
  | nil =>
    intro _ _
    rfl
  | cons e es ih =>
    intro hok hne
    have ih' := ih (fun e he => hok e (by simp [he])) (fun e he => hne e (by simp [he]))
    cases e with
    | strTok q0 q1 =>
      have hsok := hok (.strTok q0 q1) (by simp)
      simp only [EventOK] at hsok
      obtain ⟨h01, h1l, _, _, _⟩ := hsok
      have hvlen : (seg input q0 (q1 + 1)).length = q1 + 1 - q0 :=
        seg_length (by omega) (by omega)
      simp only [eventTokens, List.map_cons, rangesOfEvents, List.filterMap_cons] at *
      rw [ih']
      have hq : q0 + (q1 + 1 - q0) - 1 = q1 := by omega
      simp [hvlen, hq]
    | keySkip q0 q1 colon =>
      simp only [eventTokens, rangesOfEvents, List.filterMap_cons] at *
      exact ih'
    | eofTok p =>
      exact absurd rfl (hne (.eofTok p) (by simp) p)

theorem lexEvents_facts (input : Str) :
    (∀ e ∈ lexEvents input, EventOK input e) ∧
      List.Pairwise (fun a b => evHi a < evLo b) (lexEvents input) := by
  obtain ⟨h1, h2⟩ :=
    lexRun_master input input 0 .seek (List.drop_zero _).symm (Nat.zero_le _) trivial
  exact ⟨fun e he => (h1 e he).1, h2⟩

theorem lexEvents_split (input : Str) :
    ∃ es, lexEvents input = es ++ [.eofTok input.length] ∧
      ∀ e ∈ es, ∀ q, e ≠ .eofTok q := by
  obtain ⟨es, he, hne⟩ := lexRun_eof_last input 0 .seek
  exact ⟨es, by simpa using he, hne⟩

theorem jsonRanges_eq (input : Str) :
    jsonRanges input = rangesOfEvents (lexEvents input) ∧
      jsonRangerErrored input = false := by
  obtain ⟨es, hsplit, hne⟩ := lexEvents_split input
  have hok : ∀ e ∈ es, EventOK input e := by
    intro e he
    exact (lexEvents_facts input).1 e (by rw [hsplit]; exact List.mem_append_left _ he)
  have htok : lexTokens input =
      eventTokens input es ++ [⟨input.length, .eof, []⟩] := by
    unfold lexTokens
    rw [hsplit, eventTokens_append]
    rfl
  have hstr : ∀ t ∈ eventTokens input es, t.type = .string :=
    eventTokens_no_eof input es hne
  have hrr := rangerRanges_strings input.length [] (eventTokens input es) hstr
  constructor
  · unfold jsonRanges
    rw [htok, hrr]
    have : rangesOfEvents (lexEvents input) = rangesOfEvents es := by
      rw [hsplit]
      unfold rangesOfEvents
      rw [List.filterMap_append]
      simp
    rw [this]
    exact eventTokens_map_ranges input es hok hne
  · unfold jsonRangerErrored
    rw [htok, hrr]

/-! ## Claim C3 -/

/-- C3: the lexer never emits a `String` token for a property key — for every
emitted `String` token, the first non-whitespace character after its closing
quote (the position `tok.Pos + len(tok.Value)` is just past that quote) is
not a colon — and consequently no range emitted by the JSON ranger overlaps
any key region (opening quote through colon, inclusive) skipped by the
lexer. -/
theorem json_lexer_never_emits_keys (input : Str) :
    (∀ t ∈ lexTokens input, t.type = .string →
      input[firstNonSpace input (t.pos + t.value.length)]? ≠ some ':') ∧
      ∀ r ∈ jsonRanges input, ∀ kr ∈ lexKeyRegions input,
        r.stop ≤ kr.1 ∨ kr.2 < r.start := by
  constructor
  · intro t ht htype
    rcases eventTokens_mem input (lexEvents input) ht with ⟨q0, q1, hev, rfl⟩ | ⟨p, _, rfl⟩
    · have hok := (lexEvents_facts input).1 _ hev
      simp only [EventOK] at hok
      obtain ⟨h01, h1l, _, _, hcol⟩ := hok
      have hvlen : (seg input q0 (q1 + 1)).length = q1 + 1 - q0 :=
        seg_length (by omega) (by omega)
      simpa [hvlen, show q0 + (q1 + 1 - q0) = q1 + 1 from by omega] using hcol
    · cases htype
  · intro r hr kr hkr
    have hre := (jsonRanges_eq input).1
    rw [hre] at hr
    exact events_disjoint (lexEvents input) (lexEvents_facts input).2 r hr kr hkr

/-- Witness for C3 on the input `{"a": "b"}`: the single emitted range
`[7,8)` (the `b`) does not overlap the key region `[1,4]` (`"a"` through the
colon). -/
theorem json_lexer_never_emits_keys_witness :
    (⟨7, 8⟩ : Range).stop ≤ 1 ∨ 4 < (⟨7, 8⟩ : Range).start :=
  (json_lexer_never_emits_keys "\x7b\"a\": \"b\"\x7d".toList).2 ⟨7, 8⟩ (by decide)
    (1, 4) (by decide)

/-! ## Claim C10 -/

/-- C10: the lexer never emits an `Error` token; its stream always ends with
the single terminal `EOF` token at `len(input)` preceded only by `String`
tokens; every emitted `String` token closes with a quote inside the input
(so none is emitted for an unterminated string); reading end-of-input from
inside a string body emits exactly the terminal `EOF` token; and the JSON
ranger reports no error. -/
theorem lexer_unterminated_string_eof_only (input : Str) :
    (∀ t ∈ lexTokens input, t.type ≠ .error) ∧
      jsonRangerErrored input = false ∧
      (∃ ts, lexTokens input = ts ++ [⟨input.length, .eof, []⟩] ∧
        ∀ t ∈ ts, t.type = .string) ∧
      (∀ t ∈ lexTokens input, t.type = .string → ∃ q0 q1, q0 < q1 ∧
        q1 < input.length ∧ input[q1]? = some '\"' ∧ t.pos = q0 ∧
        t.value = seg input q0 (q1 + 1)) ∧
      ∀ (rest : List Char) (p q0 : Nat), bodyUnterminated rest = true →
        lexRun rest p (.body q0) = [.eofTok (p + rest.length)] := by
  obtain ⟨es, hsplit, hne⟩ := lexEvents_split input
  have htok : lexTokens input =
      eventTokens input es ++ [⟨input.length, .eof, []⟩] := by
    unfold lexTokens
    rw [hsplit, eventTokens_append]
    rfl
  have hstr : ∀ t ∈ eventTokens input es, t.type = .string :=
    eventTokens_no_eof input es hne
  refine ⟨?_, (jsonRanges_eq input).2, ⟨eventTokens input es, htok, hstr⟩, ?_, ?_⟩
  · intro t ht
    rw [htok] at ht
    rcases List.mem_append.mp ht with hm | hm
    · rw [hstr t hm]
      simp
    · simp only [List.mem_singleton] at hm
      subst hm
      simp
  · intro t ht htype
    rcases eventTokens_mem input (lexEvents input) ht with ⟨q0, q1, hev, rfl⟩ | ⟨p, _, rfl⟩
    · have hok := (lexEvents_facts input).1 _ hev
      simp only [EventOK] at hok
      exact ⟨q0, q1, hok.1, hok.2.1, hok.2.2.2.1, rfl, rfl⟩
    · cases htype
  · exact lexRun_body_unterminated

/-- Witness for C10: on the unterminated input `"abc` the lexer emits only
the EOF token at position 4, and the ranger derives no range and no error. -/
theorem lexer_unterminated_string_eof_only_witness :
    lexRun "abc".toList 1 (.body 0) = [.eofTok (1 + "abc".toList.length)] ∧
      jsonRangerErrored "\"abc".toList = false :=
  ⟨(lexer_unterminated_string_eof_only "\"abc".toList).2.2.2.2 "abc".toList 1 0 (by decide),
    (lexer_unterminated_string_eof_only "\"abc".toList).2.1⟩

end Dragoman
